import Mathlib

/-!
# vela: traffic watchdog

A shallow embedding of the C sources `traffic.c`, `sample.c` and `vela.c`,
followed by theorems about the embedded functions.

Conventions of the embedding.

* Machine integers are `Nat` (unsigned) or `Int` (signed); every place where the
  C code converts or wraps is written out with `% 2 ^ w` (`toU32`, `toU64`,
  `toI32`, `toI64`).
* Global variables of a translation unit become fields of a state record that is
  passed explicitly.
* Reads of the outside world (`gettimeofday`, `sysctl`, the packets libpcap has
  buffered) become arguments.
* Calls into the environment are taken to succeed: `sysctl` either returns a row
  or reports `ENOENT`, `pcap_open_live`, `iobuf_open` and `iobuf_write` succeed
  and `pcap_dispatch` reports no read error.  The exits `err(EXIT_FAILURE, ...)`
  guarding those calls are therefore not part of the model.  The two
  terminations that belong to the program logic are kept: the failed
  `assert` of `register_packet` and `errx(... "interface %s not available")`.
-/

namespace Vela

/-! ## Machine integers -/

/-- Conversion to `uint32_t`. -/
def toU32 (x : Int) : Nat := (x % 2 ^ 32).toNat

/-- Conversion to `uint64_t`. -/
def toU64 (x : Int) : Nat := (x % 2 ^ 64).toNat

/-- Conversion to a 32-bit `int` (two's complement). -/
def toI32 (x : Int) : Int := (x + 2 ^ 31) % 2 ^ 32 - 2 ^ 31

/-- Conversion to a 64-bit `long long` (two's complement). -/
def toI64 (x : Int) : Int := (x + 2 ^ 63) % 2 ^ 64 - 2 ^ 63

/-- Reasons for which the process terminates from inside the modelled code. -/
inductive Fatal where
  /-- The exit `errx(EXIT_FAILURE, "interface %s not available", iface)`. -/
  | interface_not_available (iface : String)
  /-- The exit through `abort()` from `assert(h->len == h->caplen)`. -/
  | assertion_failed
  deriving DecidableEq, Repr

/-! ## traffic.c -/

/-- The members of `struct ifmibdata` that the program reads. -/
structure ifmibdata where
  ifmd_name : String
  ifi_ibytes : Nat
  ifi_obytes : Nat
  deriving DecidableEq, Repr

/-- The interface MIB of the kernel at one instant.  Row `i` (counted from 1) is
`rows[i-1]`; `none` is a row for which `sysctl` reports `ENOENT`.  The value of
`IFMIB_IFCOUNT` is the number of rows. -/
structure IfMib where
  rows : List (Option ifmibdata)
  deriving DecidableEq, Repr

/-- The two functions the pointer `getiobytes` can be set to. -/
inductive Reader where
  | single
  | all
  deriving DecidableEq, Repr

/-- The static variables of `traffic.c` together with the function pointer
`getiobytes`. -/
structure IfStat where
  iface_num : Int
  iface_count : Int
  getiobytes : Reader
  deriving DecidableEq, Repr

/-- Number of interfaces present on the system (`IFMIB_IFCOUNT`), received in an
`unsigned int`. -/
def getifcount (m : IfMib) : Nat := m.rows.length % 2 ^ 32

/-- Fetch row `ifnum` of the MIB: `some data` when `getifmibdata` returns 0,
`none` when it returns -1 (`ENOENT`). -/
def getifmibdata (m : IfMib) (ifnum : Int) : Option ifmibdata :=
  if ifnum ≤ 0 then none else m.rows[ifnum.toNat - 1]?.join

/-- The condition `getifmibdata(i, &data) == 0 && !strcmp(data.ifmd_name, iface)`
of `getifnum`. -/
def getifnum_match (m : IfMib) (iface : String) (i : Int) : Bool :=
  match getifmibdata m i with
  | some data => data.ifmd_name = iface
  | none => false

/-- The loop of `getifnum`; `i` is the loop variable, the first argument bounds
the number of iterations still to run. -/
def getifnum_loop (m : IfMib) (count : Nat) (iface : String) : Nat → Nat → Int
  | 0, _ => -1
  | fuel + 1, i =>
    if i < count then
      if getifnum_match m iface (toI32 (i + 1)) then toI32 (i + 1)
      else getifnum_loop m count iface fuel (i + 1)
    else -1

/-- ID of an interface by its name, or -1 if not found.  The loop runs at most
`count` times. -/
def getifnum (m : IfMib) (count : Nat) (iface : String) : Int :=
  getifnum_loop m count iface count 0

/-- Number of bytes transferred for the interface selected in `iface_num`. -/
def getiobytes_single (s : IfStat) (m : IfMib) : Nat :=
  match getifmibdata m s.iface_num with
  | some data => (data.ifi_ibytes + data.ifi_obytes) % 2 ^ 64
  | none => 0

/-- The loop of `getiobytes_all`; `i` is the loop variable and `iobytes` the
accumulator. -/
def getiobytes_all_loop (s : IfStat) (m : IfMib) : Nat → Int → Nat → Nat
  | 0, _, iobytes => iobytes
  | fuel + 1, i, iobytes =>
    if i < s.iface_count then
      match getifmibdata m (i + 1) with
      | some data =>
        getiobytes_all_loop s m fuel (i + 1)
          ((iobytes + (data.ifi_ibytes + data.ifi_obytes) % 2 ^ 64) % 2 ^ 64)
      | none => getiobytes_all_loop s m fuel (i + 1) iobytes
    else iobytes

/-- Number of bytes transferred over all active interfaces.  The loop runs
`iface_count` times when that is positive and not at all otherwise. -/
def getiobytes_all (s : IfStat) (m : IfMib) : Nat :=
  getiobytes_all_loop s m s.iface_count.toNat 0 0

/-- Call through the function pointer `getiobytes`. -/
def getiobytes (s : IfStat) (m : IfMib) : Nat :=
  match s.getiobytes with
  | .single => getiobytes_single s m
  | .all => getiobytes_all s m

/-- Resolve the interface to watch: `init_ifstat`.  `iface = none` is the NULL
pointer (all interfaces). -/
def init_ifstat (m : IfMib) (iface : Option String) : Except Fatal IfStat :=
  let iface_count := toI32 (getifcount m)
  match iface with
  | some name =>
    let iface_num := getifnum m (toU32 iface_count) name
    if iface_num < 0 then .error (.interface_not_available name)
    else .ok ⟨iface_num, iface_count, .single⟩
  | none => .ok ⟨0, iface_count, .all⟩

/-! ## sample.c -/

/-- A `struct timeval`. -/
structure timeval where
  tv_sec : Int
  tv_usec : Int
  deriving DecidableEq, Repr

/-- A `struct pcap_pkthdr`: capture time, captured length, original length. -/
structure pcap_pkthdr where
  ts : timeval
  caplen : Nat
  len : Nat
  deriving DecidableEq, Repr

/-- One packet as libpcap hands it to the callback: its header and the `caplen`
captured bytes. -/
structure Packet where
  h : pcap_pkthdr
  bytes : List Nat
  deriving DecidableEq, Repr

/-- Byte order of the host. -/
inductive ByteOrder where
  | little
  | big
  deriving DecidableEq, Repr

/-- The `n` low-order bytes of `v`, least significant first. -/
def le_bytes : Nat → Nat → List Nat
  | 0, _ => []
  | n + 1, v => v % 256 :: le_bytes n (v / 256)

/-- The object representation of an `n`-byte unsigned integer on the host. -/
def host_bytes (o : ByteOrder) (n v : Nat) : List Nat :=
  match o with
  | .little => le_bytes n v
  | .big => (le_bytes n v).reverse

/-- The static variables of `sample.c`: `out` is the sequence of bytes handed
to `iobuf_write` so far, `break_loop` is the flag of the handle `pcap` that
`pcap_breakloop` sets, `linktype` is what `pcap_datalink` reports for it. -/
structure Capture where
  out : List Nat
  bytes_left : Int
  break_loop : Bool
  linktype : Int
  deriving DecidableEq, Repr

/-- The function `write32` generated by `WRITE(32)`; the argument is converted
to `uint32_t` by the call. -/
def write32 (o : ByteOrder) (value : Int) (s : Capture) : Capture :=
  { s with out := s.out ++ host_bytes o 4 (toU32 value) }

/-- The function `write16` generated by `WRITE(16)`; the argument is converted
to `uint16_t` by the call. -/
def write16 (o : ByteOrder) (value : Int) (s : Capture) : Capture :=
  { s with out := s.out ++ host_bytes o 2 (value % 2 ^ 16).toNat }

/-- The callback `register_packet`.  `Except.error s` is the abort of the
process by the failed assertion, `s` being the state at that point. -/
def register_packet (o : ByteOrder) (p : Packet) (s : Capture) : Except Capture Capture :=
  let s := write32 o p.h.ts.tv_sec s
  let s := write32 o p.h.ts.tv_usec s
  let s := write32 o p.h.len s
  let s := write32 o p.h.len s
  if p.h.len ≠ p.h.caplen then .error s
  else
    let s := { s with out := s.out ++ p.bytes.take p.h.len }
    let s := { s with bytes_left := toI64 (s.bytes_left - p.h.len) }
    if s.bytes_left < 0 then .ok { s with break_loop := true } else .ok s

/-- The call `pcap_dispatch(pcap, 0, register_packet, NULL)` on the packets that
are buffered: the callback runs on each packet in order until the buffer is
empty or, checked before each packet, `pcap_breakloop` has been called.  The
`Int` is the return value: the number of packets processed, or -2 when the
flag stopped the loop before any packet. -/
def pcap_dispatch (o : ByteOrder) : List Packet → Capture → Int → Except Capture (Capture × Int)
  | [], s, n => .ok (s, n)
  | p :: rest, s, n =>
    if s.break_loop then
      if n = 0 then .ok ({ s with break_loop := false }, -2) else .ok (s, n)
    else
      match register_packet o p s with
      | .error s => .error s
      | .ok s => pcap_dispatch o rest s (n + 1)

/-- What a completed session leaves behind: the bytes of the file and the two
numbers of the line `captured %d packets, size %lu`. -/
structure SampleResult where
  file : List Nat
  packets : Int
  size : Nat
  deriving DecidableEq, Repr

/-- The function `sample_single` on an opened device of link type `linktype`
with `frames` buffered; `size` is an `unsigned long`. -/
def sample_single (o : ByteOrder) (linktype : Int) (frames : List Packet) (size : Nat) :
    Except Capture SampleResult :=
  let s : Capture := ⟨[], toI64 size, false, linktype⟩
  let s := write32 o 0xa1b2c3d4 s
  let s := write16 o 2 s
  let s := write16 o 4 s
  let s := write32 o 0 s
  let s := write32 o 0 s
  let s := write32 o 0xffff s
  let s := write32 o s.linktype s
  match pcap_dispatch o frames s 0 with
  | .error s => .error s
  | .ok (s, n) =>
    let n := if n = -2 then 0 else n
    .ok ⟨s.out, n, toU64 (size - s.bytes_left)⟩

/-- The function `sample`; `iface = none` is the NULL pointer, for which only a
warning is printed. -/
def sample (o : ByteOrder) (iface : Option String) (linktype : Int) (frames : List Packet)
    (size : Nat) : Except Capture (Option SampleResult) :=
  match iface with
  | none => .ok none
  | some _ => (sample_single o linktype frames size).map some

/-! ## The capture file format

The layout of the file as the specification gives it: a 24-byte global header
followed by records of a 16-byte header and the frame bytes.  `pcap_header`
and `pcap_record` build the bytes, `read_pcap` decodes them; they are what
the output of `sample_single` is compared with. -/

/-- The 24-byte header `[magic:u32][version_major:u16][version_minor:u16]`
`[thiszone:i32=0][sigfigs:u32=0][snaplen:u32=65535][linktype:u32]`. -/
def pcap_header (o : ByteOrder) (linktype : Int) : List Nat :=
  host_bytes o 4 0xa1b2c3d4 ++ host_bytes o 2 2 ++ host_bytes o 2 4 ++ host_bytes o 4 0 ++
    host_bytes o 4 0 ++ host_bytes o 4 65535 ++ host_bytes o 4 (toU32 linktype)

/-- The 16-byte record header `[ts_sec:u32][ts_usec:u32][incl_len:u32][orig_len:u32]`
of a packet: capture-time seconds and microseconds, captured length, original
length. -/
def pcap_record_header (o : ByteOrder) (p : Packet) : List Nat :=
  host_bytes o 4 (toU32 p.h.ts.tv_sec) ++ host_bytes o 4 (toU32 p.h.ts.tv_usec) ++
    host_bytes o 4 p.h.caplen ++ host_bytes o 4 p.h.len

/-- One record: the record header followed by the frame bytes. -/
def pcap_record (o : ByteOrder) (p : Packet) : List Nat :=
  pcap_record_header o p ++ p.bytes

/-- The records of a list of packets, one after the other. -/
def pcap_records (o : ByteOrder) : List Packet → List Nat
  | [] => []
  | p :: ps => pcap_record o p ++ pcap_records o ps

/-- Total original length of a list of packets. -/
def frame_bytes (ps : List Packet) : Nat := (ps.map fun p => p.h.len).sum

/-- Value of a little-endian sequence of bytes. -/
def le_value : List Nat → Nat
  | [] => 0
  | b :: bs => b + 256 * le_value bs

/-- Value of an unsigned integer from its object representation on the host. -/
def host_value (o : ByteOrder) (bs : List Nat) : Nat :=
  match o with
  | .little => le_value bs
  | .big => le_value bs.reverse

/-- Split a `u32` field off the front of a byte sequence. -/
def read_u32 (o : ByteOrder) : List Nat → Option (Nat × List Nat)
  | b0 :: b1 :: b2 :: b3 :: rest => some (host_value o [b0, b1, b2, b3], rest)
  | _ => none

/-- Split a `u16` field off the front of a byte sequence. -/
def read_u16 (o : ByteOrder) : List Nat → Option (Nat × List Nat)
  | b0 :: b1 :: rest => some (host_value o [b0, b1], rest)
  | _ => none

/-- A decoded global header. -/
structure GlobalHeader where
  magic : Nat
  version_major : Nat
  version_minor : Nat
  thiszone : Nat
  sigfigs : Nat
  snaplen : Nat
  linktype : Nat
  deriving DecidableEq, Repr

/-- A decoded record. -/
structure Record where
  ts_sec : Nat
  ts_usec : Nat
  incl_len : Nat
  orig_len : Nat
  data : List Nat
  deriving DecidableEq, Repr

/-- Decode one record: four `u32` fields, then `incl_len` bytes. -/
def read_record (o : ByteOrder) (bs : List Nat) : Option (Record × List Nat) :=
  match read_u32 o bs with
  | none => none
  | some (ts_sec, bs) =>
    match read_u32 o bs with
    | none => none
    | some (ts_usec, bs) =>
      match read_u32 o bs with
      | none => none
      | some (incl_len, bs) =>
        match read_u32 o bs with
        | none => none
        | some (orig_len, bs) =>
          if bs.length < incl_len then none
          else some (⟨ts_sec, ts_usec, incl_len, orig_len, bs.take incl_len⟩, bs.drop incl_len)

/-- Decode records until the bytes are used up; the first argument bounds the
number of records. -/
def read_records (o : ByteOrder) : Nat → List Nat → Option (List Record)
  | 0, bs => if bs.isEmpty then some [] else none
  | fuel + 1, bs =>
    if bs.isEmpty then some []
    else
      match read_record o bs with
      | none => none
      | some (r, rest) =>
        match read_records o fuel rest with
        | none => none
        | some rs => some (r :: rs)

/-- Decode the 24-byte global header. -/
def read_header (o : ByteOrder) (bs : List Nat) : Option (GlobalHeader × List Nat) :=
  match read_u32 o bs with
  | none => none
  | some (magic, bs) =>
    match read_u16 o bs with
    | none => none
    | some (major, bs) =>
      match read_u16 o bs with
      | none => none
      | some (minor, bs) =>
        match read_u32 o bs with
        | none => none
        | some (thiszone, bs) =>
          match read_u32 o bs with
          | none => none
          | some (sigfigs, bs) =>
            match read_u32 o bs with
            | none => none
            | some (snaplen, bs) =>
              match read_u32 o bs with
              | none => none
              | some (linktype, bs) =>
                some (⟨magic, major, minor, thiszone, sigfigs, snaplen, linktype⟩, bs)

/-- Decode a capture file: the global header, then the records. -/
def read_pcap (o : ByteOrder) (bs : List Nat) : Option (GlobalHeader × List Record) :=
  match read_header o bs with
  | none => none
  | some (h, rest) =>
    match read_records o rest.length rest with
    | none => none
    | some rs => some (h, rs)

/-- The record a reader is expected to get back for a packet: its timestamp,
its two lengths and its bytes. -/
def record_of (p : Packet) : Record :=
  ⟨p.h.ts.tv_sec.toNat, p.h.ts.tv_usec.toNat, p.h.caplen, p.h.len, p.bytes⟩

/-- What the types of libpcap guarantee of a packet handed to the callback:
`caplen` bytes are present and both lengths are 32-bit values. -/
def Packet.well_formed (p : Packet) : Prop :=
  p.bytes.length = p.h.caplen ∧ p.h.caplen < 2 ^ 32 ∧ p.h.len < 2 ^ 32

instance (p : Packet) : Decidable p.well_formed := by
  unfold Packet.well_formed
  infer_instance

/-- Number of packets a session writes when `b` bytes of budget are left: it
stops after the first packet longer than what is left. -/
def written_count : Nat → List Packet → Nat
  | _, [] => 0
  | b, p :: rest => if b < p.h.len then 1 else written_count (b - p.h.len) rest + 1

/-- A packet of `n` zero bytes captured in full at time 7.000009. -/
def zero_packet (n : Nat) : Packet := ⟨⟨⟨7, 9⟩, n, n⟩, List.replicate n 0⟩

/-- A packet of original length 3 of which 2 bytes were captured. -/
def truncated_packet : Packet := ⟨⟨⟨7, 9⟩, 2, 3⟩, [1, 2]⟩

/-- Three packets buffered for one session, the second of them truncated. -/
def truncated_session : List Packet := [zero_packet 1, truncated_packet, zero_packet 1]

/-! ## vela.c -/

/-- Disposition of `SIGALRM`: default action, `SIG_IGN`, or the handler
`sig_poll`. -/
inductive Disposition where
  | dfl
  | ign
  | handler
  deriving DecidableEq, Repr

/-- Lines the program prints: on standard output, and on standard error for the
warning. -/
inductive Event where
  /-- The line `ALERT! speed=...`, with the arguments `alert` was called with. -/
  | alert (old_iobytes new_iobytes elapsed_usec : Nat)
  /-- The line `start capture`. -/
  | start_capture
  /-- The warning `capture on multiple interfaces not implemented yet`. -/
  | warn_multiple
  /-- The line `captured %d packets, size %lu`. -/
  | captured (packets : Int) (size : Nat)
  deriving DecidableEq, Repr

/-- The static variables of `vela.c`, the statics of `traffic.c` they are used
with, and the parts of the process the functions act on: the disposition of
`SIGALRM`, the interval timer, the lines printed and the file `test.pcap`
(`none` while it has not been created). -/
structure Monitor where
  flags : Nat
  sample_size : Nat
  treshold : Nat
  last_poll_iobytes : Nat
  last_poll_time : timeval
  mail : Option String
  iface : Option String
  ifstat : IfStat
  sigalrm : Disposition
  itimer : Option (timeval × timeval)
  stdout : List Event
  test_pcap : Option (List Nat)
  deriving DecidableEq, Repr

/-- What the outside world presents during one run of `sig_poll`: the clock and
the interface MIB when `sig_poll` reads them, the capture device when a session
is started (link type and buffered packets), and the clock and the MIB when
`reset_counters` reads them after the session. -/
structure Tick where
  current_time : timeval
  mib : IfMib
  linktype : Int
  frames : List Packet
  reset_time : timeval
  reset_mib : IfMib
  deriving DecidableEq, Repr

/-- The macro `timersub(a, b, result)` of `<sys/time.h>`. -/
def timersub (a b : timeval) : timeval :=
  let sec := a.tv_sec - b.tv_sec
  let usec := a.tv_usec - b.tv_usec
  if usec < 0 then ⟨sec - 1, usec + 1000000⟩ else ⟨sec, usec⟩

/-- The function `reset_counters`, reading the clock `now` and the MIB `m`. -/
def reset_counters (now : timeval) (m : IfMib) (st : Monitor) : Monitor :=
  let st := { st with last_poll_time := now }
  { st with last_poll_iobytes := getiobytes st.ifstat m }

/-- The function `alert`.  `Except.error st` is the abort of the process inside
the capture, `st` being the state at that point. -/
def alert (o : ByteOrder) (t : Tick) (old_iobytes new_iobytes elapsed_usec : Nat)
    (st : Monitor) : Except Monitor Monitor :=
  let old_act := st.sigalrm
  let st := { st with sigalrm := .ign }
  let st := { st with stdout := st.stdout ++ [Event.alert old_iobytes new_iobytes elapsed_usec] }
  let st := { st with stdout := st.stdout ++ [Event.start_capture] }
  match sample o st.iface t.linktype t.frames st.sample_size with
  | .error c => .error { st with test_pcap := some c.out }
  | .ok r =>
    let st :=
      match r with
      | none => { st with stdout := st.stdout ++ [Event.warn_multiple] }
      | some r =>
        { st with stdout := st.stdout ++ [Event.captured r.packets r.size], test_pcap := some r.file }
    let st := reset_counters t.reset_time t.reset_mib st
    .ok { st with sigalrm := old_act }

/-- The value of `elapsed_usec` in `sig_poll`. -/
def elapsed_usec (current_time last_poll_time : timeval) : Nat :=
  let elapsed_time := timersub current_time last_poll_time
  toU64 (elapsed_time.tv_sec * 1000000 + elapsed_time.tv_usec)

/-- The condition of the `if` in `sig_poll`, on `uint64_t` operands. -/
def over_treshold (treshold last_poll_iobytes current_iobytes elapsed_usec : Nat) : Bool :=
  decide ((toU64 ((current_iobytes : Int) - last_poll_iobytes) * 1000000) % 2 ^ 64 >
    (treshold * elapsed_usec) % 2 ^ 64)

/-- The signal handler `sig_poll`. -/
def sig_poll (o : ByteOrder) (t : Tick) (st : Monitor) : Except Monitor Monitor :=
  let current_time := t.current_time
  let current_iobytes := getiobytes st.ifstat t.mib
  let elapsed_usec := elapsed_usec current_time st.last_poll_time
  let r :=
    if over_treshold st.treshold st.last_poll_iobytes current_iobytes elapsed_usec then
      alert o t st.last_poll_iobytes current_iobytes elapsed_usec st
    else .ok st
  match r with
  | .error st => .error st
  | .ok st => .ok { st with last_poll_time := current_time, last_poll_iobytes := current_iobytes }

/-- The function `start_poll`, called with `SIGALRM` at disposition `sigalrm`
and the interval timer `itimer`; the statics `last_poll_time` and
`last_poll_iobytes` hold their initial zeros.  `Except.error` carries the reason
of the exit together with the disposition and the timer at that point. -/
def start_poll (flags treshold sample_size poll_ms : Nat) (iface mail : Option String)
    (m : IfMib) (sigalrm : Disposition) (itimer : Option (timeval × timeval)) :
    Except (Fatal × Disposition × Option (timeval × timeval)) Monitor :=
  match init_ifstat m iface with
  | .error e => .error (e, sigalrm, itimer)
  | .ok ifstat =>
    let tv : timeval := ⟨poll_ms / 1000, (poll_ms % 1000) * 1000⟩
    .ok { flags := flags, sample_size := sample_size, treshold := treshold,
          last_poll_iobytes := 0, last_poll_time := ⟨0, 0⟩, mail := mail, iface := iface,
          ifstat := ifstat, sigalrm := .handler, itimer := some (tv, tv),
          stdout := [], test_pcap := none }

/-! ## vela.c as a process that receives `SIGALRM`

The handler `sig_poll`, with the call of `alert` inlined, is cut into steps
between which the interval timer may expire.  A `SIGALRM` that is generated is
treated as the kernel the program is written for (`traffic.c` is compiled only
under `__FreeBSD__`) treats it: it is discarded when the disposition is
`SIG_IGN`; otherwise it is held pending while it is blocked, which it is
exactly while the handler runs, since `start_poll` installs the handler with
`sa_flags = 0`; otherwise the handler is entered.  Setting the disposition to
`SIG_IGN` discards a pending signal. -/

/-- Program points of `sig_poll` and of `alert` called from it. -/
inductive Point where
  /-- About to read the clock and the counter and to test the rate. -/
  | poll_read
  /-- In `alert`, about to call `sigaction(SIGALRM, &act_ign, &old_act)`. -/
  | alert_ignore
  /-- In `alert`, about to print the two lines. -/
  | alert_print
  /-- In `alert`, about to call `sample`. -/
  | alert_sample
  /-- In `alert`, inside the call of `sample`: the capture is in progress. -/
  | capturing
  /-- In `alert`, about to call `reset_counters`. -/
  | alert_reset
  /-- In `alert`, about to call `sigaction(SIGALRM, &old_act, NULL)`. -/
  | alert_restore
  /-- Back in `sig_poll`, about to store the baseline and return. -/
  | poll_store
  deriving DecidableEq, Repr

/-- One activation of the handler `sig_poll`: its program point and its local
variables, with `old_iobytes` and `old_act` of `alert`. -/
structure Activation where
  pc : Point
  current_time : timeval
  current_iobytes : Nat
  elapsed_usec : Nat
  old_iobytes : Nat
  old_act : Disposition
  deriving DecidableEq, Repr

/-- The process: the variables, the activations of the handler that have not
returned (innermost first; none while the main loop sits in `pause`), whether a
`SIGALRM` is pending, whether the process has terminated, and how many times
`sig_poll` has been entered. -/
structure Process where
  st : Monitor
  stack : List Activation
  pending : Bool
  dead : Bool
  polls : Nat
  deriving DecidableEq, Repr

/-- What happens next: the interval timer expires, or the process executes its
next step with the outside world as given. -/
inductive Input where
  | alarm
  | run (t : Tick)
  deriving DecidableEq, Repr

/-- The activation record of a handler that has just been entered. -/
def Activation.entry : Activation := ⟨.poll_read, ⟨0, 0⟩, 0, 0, 0, .dfl⟩

/-- A `SIGALRM` is generated for the process. -/
def deliver_sigalrm (p : Process) : Process :=
  match p.st.sigalrm with
  | .ign => p
  | .dfl => if p.stack.isEmpty then { p with dead := true } else { p with pending := true }
  | .handler =>
    if p.stack.isEmpty then { p with stack := [Activation.entry], polls := p.polls + 1 }
    else { p with pending := true }

/-- The innermost activation `a` executes its next step; `rest` are the
activations below it. -/
def run_step (o : ByteOrder) (t : Tick) (p : Process) (a : Activation)
    (rest : List Activation) : Process :=
  match a.pc with
  | .poll_read =>
    let current_iobytes := getiobytes p.st.ifstat t.mib
    let elapsed := elapsed_usec t.current_time p.st.last_poll_time
    let a := { a with current_time := t.current_time, current_iobytes := current_iobytes,
                      elapsed_usec := elapsed, old_iobytes := p.st.last_poll_iobytes }
    if over_treshold p.st.treshold p.st.last_poll_iobytes current_iobytes elapsed then
      { p with stack := { a with pc := .alert_ignore } :: rest }
    else { p with stack := { a with pc := .poll_store } :: rest }
  | .alert_ignore =>
    { p with st := { p.st with sigalrm := .ign }, pending := false,
             stack := { a with old_act := p.st.sigalrm, pc := .alert_print } :: rest }
  | .alert_print =>
    { p with st := { p.st with stdout := p.st.stdout ++
                       [Event.alert a.old_iobytes a.current_iobytes a.elapsed_usec] ++
                       [Event.start_capture] },
             stack := { a with pc := .alert_sample } :: rest }
  | .alert_sample => { p with stack := { a with pc := .capturing } :: rest }
  | .capturing =>
    match sample o p.st.iface t.linktype t.frames p.st.sample_size with
    | .error c => { p with st := { p.st with test_pcap := some c.out }, dead := true }
    | .ok none =>
      { p with st := { p.st with stdout := p.st.stdout ++ [Event.warn_multiple] },
               stack := { a with pc := .alert_reset } :: rest }
    | .ok (some r) =>
      { p with st := { p.st with stdout := p.st.stdout ++ [Event.captured r.packets r.size],
                                 test_pcap := some r.file },
               stack := { a with pc := .alert_reset } :: rest }
  | .alert_reset =>
    { p with st := reset_counters t.reset_time t.reset_mib p.st,
             stack := { a with pc := .alert_restore } :: rest }
  | .alert_restore =>
    { p with st := { p.st with sigalrm := a.old_act },
             stack := { a with pc := .poll_store } :: rest }
  | .poll_store =>
    let p := { p with st := { p.st with last_poll_time := a.current_time,
                                        last_poll_iobytes := a.current_iobytes },
                      stack := rest }
    if p.pending then deliver_sigalrm { p with pending := false } else p

/-- One step of the process. -/
def step (o : ByteOrder) (p : Process) (i : Input) : Process :=
  if p.dead then p
  else
    match i with
    | .alarm => deliver_sigalrm p
    | .run t =>
      match p.stack with
      | [] => p
      | a :: rest => run_step o t p a rest

/-- The process after a sequence of inputs. -/
def exec (o : ByteOrder) (p : Process) : List Input → Process
  | [] => p
  | i :: is => exec o (step o p i) is

/-- The process after `start_poll` has returned `st`: waiting in `pause`. -/
def Process.start (st : Monitor) : Process := ⟨st, [], false, false, 0⟩

/-- Number of capture sessions in progress. -/
def Process.sessions (p : Process) : Nat := (p.stack.filter fun a => a.pc = .capturing).length

/-- Whether the program point lies in `alert` between its two calls of
`sigaction`. -/
def Point.in_capture_cycle : Point → Bool
  | .alert_print | .alert_sample | .capturing | .alert_reset | .alert_restore => true
  | _ => false

/-- Whether some activation of the process is between the two calls of
`sigaction` in `alert`. -/
def Process.in_capture_cycle (p : Process) : Bool := p.stack.any fun a => a.pc.in_capture_cycle

/-- The invariant of the process: at most one activation of the handler exists;
between the two calls of `sigaction` in `alert` the disposition is `SIG_IGN` and
`old_act` holds the handler, elsewhere the disposition is the handler. -/
def Process.invariant (p : Process) : Prop :=
  (p.stack = [] ∧ p.st.sigalrm = .handler) ∨
  ∃ a, p.stack = [a] ∧
    (a.pc.in_capture_cycle = false → p.st.sigalrm = .handler) ∧
    (a.pc.in_capture_cycle = true → p.st.sigalrm = .ign ∧ a.old_act = .handler)

/-! ## Reading the interface table -/

/-- Row `i` (counted from 1) of the MIB is readable and carries the name `name`. -/
def named_at (m : IfMib) (name : String) (i : Nat) : Prop :=
  1 ≤ i ∧ ∃ d, m.rows[i - 1]? = some (some d) ∧ d.ifmd_name = name

/-- Received plus transmitted bytes of a row; a row that is not readable counts
for nothing. -/
def row_bytes : Option ifmibdata → Nat
  | some d => d.ifi_ibytes + d.ifi_obytes
  | none => 0

/-! ## Observations and concrete inputs used in the statements -/

/-- The state in which a run of the monitor ends, whether it returned or the
process was aborted. -/
def final (r : Except Monitor Monitor) : Monitor :=
  match r with
  | .ok st => st
  | .error st => st

/-- Whether an output line is the `ALERT!` line. -/
def is_alert : Event → Bool
  | .alert _ _ _ => true
  | _ => false

/-- Whether the run `r`, started in state `st`, called `alert`: the `ALERT!` line
is among the lines printed since `st`. -/
def raised_alert (st : Monitor) (r : Except Monitor Monitor) : Bool :=
  ((final r).stdout.drop st.stdout.length).any is_alert

/-- A monitor watching `em0` with a threshold of 3689348814742 bytes per second,
last polled at time 0 with the counter at 0. -/
def overflow_monitor : Monitor :=
  { flags := 0, sample_size := 1048576, treshold := 3689348814742, last_poll_iobytes := 0,
    last_poll_time := ⟨0, 0⟩, mail := none, iface := some "em0",
    ifstat := ⟨1, 1, .single⟩, sigalrm := .handler, itimer := some (⟨5, 0⟩, ⟨5, 0⟩),
    stdout := [], test_pcap := none }

/-- A tick five seconds later at which `em0` has transferred one byte. -/
def overflow_tick : Tick :=
  { current_time := ⟨5, 0⟩, mib := ⟨[some ⟨"em0", 1, 0⟩]⟩, linktype := 1, frames := [],
    reset_time := ⟨5, 1⟩, reset_mib := ⟨[some ⟨"em0", 1, 0⟩]⟩ }

/-- The table at startup: one interface. -/
def startup_mib : IfMib := ⟨[some ⟨"em0", 0, 0⟩]⟩

/-- The table at a later read: `em0` has transferred 10 bytes and an interface
`tun0`, created since, 5 bytes. -/
def grown_mib : IfMib := ⟨[some ⟨"em0", 10, 0⟩, some ⟨"tun0", 5, 0⟩]⟩

/-- A table with one interface whose two counters stand at 2^63. -/
def wrapping_mib : IfMib := ⟨[some ⟨"em0", 2 ^ 63, 2 ^ 63⟩]⟩

/-- A monitor watching `em0` with a threshold of 1000000 bytes per second and
a budget of 1000 bytes, last polled at time 0 with the counter at 0. -/
def example_monitor : Monitor :=
  { flags := 0, sample_size := 1000, treshold := 1000000, last_poll_iobytes := 0,
    last_poll_time := ⟨0, 0⟩, mail := none, iface := some "em0",
    ifstat := ⟨1, 1, .single⟩, sigalrm := .handler, itimer := some (⟨1, 0⟩, ⟨1, 0⟩),
    stdout := [], test_pcap := none }

/-- A tick one second after time 0 at which `em0` has transferred `n` bytes; no
packet is buffered if a capture starts, and the counter stands at `n + x` when
the capture is over, two seconds later. -/
def example_tick (n x : Nat) : Tick :=
  { current_time := ⟨1, 0⟩, mib := ⟨[some ⟨"em0", n, 0⟩]⟩, linktype := 1, frames := [],
    reset_time := ⟨3, 0⟩, reset_mib := ⟨[some ⟨"em0", n + x, 0⟩]⟩ }

/-- The timer expires, the handler runs up to the capture, and the timer expires
twice more while the capture is in progress. -/
def alarms_during_capture : List Input :=
  [.alarm, .run (example_tick 2000000 500), .run (example_tick 2000000 500),
    .run (example_tick 2000000 500), .run (example_tick 2000000 500), .alarm, .alarm]

/-- A tick at time 0, the time at which `example_monitor` was last polled, at
which `em0` has transferred `n` bytes. -/
def instant_tick (n : Nat) : Tick :=
  { current_time := ⟨0, 0⟩, mib := ⟨[some ⟨"em0", n, 0⟩]⟩, linktype := 1, frames := [],
    reset_time := ⟨0, 1⟩, reset_mib := ⟨[some ⟨"em0", n, 0⟩]⟩ }

/-! # Theorems -/

/-! ## traffic.c -/

theorem getifmibdata_succ (m : IfMib) (i : Nat) :
    getifmibdata m ((i : Int) + 1) = m.rows[i]?.join := by
  unfold getifmibdata
  have h1 : ¬ ((i : Int) + 1 ≤ 0) := by omega
  have h2 : ((i : Int) + 1).toNat - 1 = i := by omega
  rw [if_neg h1, h2]

theorem toI32_of_lt (x : Nat) (h : x < 2 ^ 31) : toI32 (x : Int) = x := by
  unfold toI32
  omega

theorem getifnum_match_iff (m : IfMib) (name : String) (i : Nat) :
    getifnum_match m name ((i : Int) + 1) = true ↔ named_at m name (i + 1) := by
  unfold getifnum_match named_at
  rw [getifmibdata_succ, Nat.add_sub_cancel]
  cases hrow : m.rows[i]? with
  | none =>
    simp only [Option.join, Option.bind, Bool.false_eq_true, false_iff]
    rintro ⟨-, d, hd, -⟩
    cases hd
  | some r =>
    cases r with
    | none =>
      simp only [Option.join, Option.bind, id, Bool.false_eq_true, false_iff]
      rintro ⟨-, d, hd, -⟩
      cases hd
    | some d =>
      simp only [Option.join, Option.bind, id, decide_eq_true_eq]
      constructor
      · intro h
        exact ⟨Nat.le_add_left 1 i, d, rfl, h⟩
      · rintro ⟨-, d', hd', hn⟩
        cases hd'
        exact hn

/-- The loop of `getifnum` started at `i` returns the first index above `i`
whose row is readable and carries the name, or -1 when there is none up to
`count`. -/
theorem getifnum_loop_spec (m : IfMib) (count : Nat) (name : String) (hc : count < 2 ^ 31)
    (fuel i : Nat) (hfuel : count - i ≤ fuel) :
    (getifnum_loop m count name fuel i = -1 ∧
        ∀ k, i < k → k ≤ count → ¬ named_at m name k) ∨
      ∃ k, i < k ∧ k ≤ count ∧ named_at m name k ∧
        (∀ j, i < j → j < k → ¬ named_at m name j) ∧
        getifnum_loop m count name fuel i = (k : Nat) := by
  induction fuel generalizing i with
  | zero =>
    left
    exact ⟨rfl, fun k h1 h2 => by omega⟩
  | succ fuel ih =>
    rw [getifnum_loop]
    by_cases hi : i < count
    · have hcast : ((i + 1 : Nat) : Int) = (i : Int) + 1 := by push_cast; rfl
      have h32 : toI32 ((i : Int) + 1) = (i : Int) + 1 := by
        have := toI32_of_lt (i + 1) (by omega)
        rwa [hcast] at this
      rw [if_pos hi, h32]
      by_cases hm : getifnum_match m name ((i : Int) + 1) = true
      · right
        rw [if_pos hm]
        exact ⟨i + 1, by omega, by omega, (getifnum_match_iff m name i).1 hm,
          fun j h1 h2 => by omega, by rw [hcast]⟩
      · rw [if_neg hm]
        have hno : ¬ named_at m name (i + 1) := fun h => hm ((getifnum_match_iff m name i).2 h)
        rcases ih (i + 1) (by omega) with ⟨hr, hnone⟩ | ⟨k, hk1, hk2, hk3, hk4, hk5⟩
        · left
          refine ⟨hr, fun k h1 h2 => ?_⟩
          by_cases hk : k = i + 1
          · rw [hk]; exact hno
          · exact hnone k (by omega) h2
        · right
          refine ⟨k, by omega, hk2, hk3, fun j h1 h2 => ?_, hk5⟩
          by_cases hj : j = i + 1
          · rw [hj]; exact hno
          · exact hk4 j (by omega) h2
    · left
      rw [if_neg hi]
      exact ⟨rfl, fun k h1 h2 => by omega⟩

theorem init_ifstat_count (m : IfMib) (hc : m.rows.length < 2 ^ 31) :
    toI32 (getifcount m) = m.rows.length ∧ toU32 (toI32 (getifcount m)) = m.rows.length := by
  have h1 : getifcount m = m.rows.length := by
    unfold getifcount
    omega
  have h2 : toI32 (getifcount m) = m.rows.length := by rw [h1]; exact toI32_of_lt _ hc
  refine ⟨h2, ?_⟩
  rw [h2]
  unfold toU32
  omega

/-- C9: for every interface table and every name, `init_ifstat` with a name
exits with `interface not available` if and only if no readable row with index
1..count carries exactly that name, and otherwise selects the lowest such index
and the single-interface reader; with no name it never fails and selects the
all-interfaces reader.  In `start_poll` a failed resolution exits with the
disposition of `SIGALRM` and the timer as they were on entry, and only a
successful one is followed by the installation of the handler and the timer. -/
theorem init_ifstat_resolve (m : IfMib) (name : String) (hc : m.rows.length < 2 ^ 31) :
    (init_ifstat m (some name) = .error (.interface_not_available name) ↔
      ¬ ∃ i, i ≤ m.rows.length ∧ named_at m name i) ∧
    (∀ i, i ≤ m.rows.length → named_at m name i → (∀ j, j < i → ¬ named_at m name j) →
      init_ifstat m (some name) = .ok ⟨i, m.rows.length, .single⟩) ∧
    init_ifstat m none = .ok ⟨0, m.rows.length, .all⟩ ∧
    (∀ (flags treshold sample_size poll_ms : Nat) (iface mail : Option String)
        (sigalrm : Disposition) (itimer : Option (timeval × timeval)),
      (∀ e, init_ifstat m iface = .error e →
        start_poll flags treshold sample_size poll_ms iface mail m sigalrm itimer
          = .error (e, sigalrm, itimer)) ∧
      (∀ s, init_ifstat m iface = .ok s →
        ∃ st, start_poll flags treshold sample_size poll_ms iface mail m sigalrm itimer = .ok st ∧
          st.ifstat = s ∧ st.sigalrm = .handler ∧
          st.itimer = some (⟨poll_ms / 1000, (poll_ms % 1000) * 1000⟩,
            ⟨poll_ms / 1000, (poll_ms % 1000) * 1000⟩))) := by
  obtain ⟨hcount, hucount⟩ := init_ifstat_count m hc
  have hspec := getifnum_loop_spec m m.rows.length name hc m.rows.length 0 (by omega)
  have hinit : init_ifstat m (some name) =
      if getifnum m m.rows.length name < 0 then .error (.interface_not_available name)
      else .ok ⟨getifnum m m.rows.length name, m.rows.length, .single⟩ := by
    simp only [init_ifstat, hucount]
    rw [hcount]
  have hpos : ∀ i, named_at m name i → 0 < i := fun i h => h.1
  refine ⟨?_, ?_, ?_, ?_⟩
  · rw [hinit]
    unfold getifnum
    rcases hspec with ⟨hr, hnone⟩ | ⟨k, hk1, hk2, hk3, hk4, hk5⟩
    · rw [hr]
      simp only [Int.reduceNeg, Int.reduceLT, if_true, true_iff]
      rintro ⟨i, hi, hn⟩
      exact hnone i (hpos i hn) hi hn
    · rw [hk5]
      have hnn : ¬ ((k : Int) < 0) := by omega
      simp only [hnn, if_false, false_iff, not_not]
      constructor
      · intro h
        exact absurd h (by simp)
      · intro h
        exact absurd ⟨k, hk2, hk3⟩ h
  · intro i hi hn hlow
    rw [hinit]
    unfold getifnum
    rcases hspec with ⟨hr, hnone⟩ | ⟨k, hk1, hk2, hk3, hk4, hk5⟩
    · exact absurd hn (hnone i (hpos i hn) hi)
    · have hki : k = i := by
        rcases Nat.lt_trichotomy k i with h | h | h
        · exact absurd hk3 (hlow k h)
        · exact h
        · exact absurd hn (hk4 i (hpos i hn) h)
      subst hki
      rw [hk5]
      have hnn : ¬ ((k : Int) < 0) := by omega
      simp only [hnn, if_false]
  · simp only [init_ifstat, hcount]
  · intro flags treshold sample_size poll_ms iface mail sigalrm itimer
    refine ⟨fun e he => ?_, fun s hs => ?_⟩
    · simp only [start_poll, he]
    · simp only [start_poll, hs]
      exact ⟨_, rfl, rfl, rfl, rfl⟩

/-- C9, witness: `em1` is row 2 of a table whose row 1 is gone. -/
theorem init_ifstat_resolve_witness :
    init_ifstat ⟨[none, some ⟨"em1", 0, 0⟩, some ⟨"em1", 5, 5⟩]⟩ (some "em1")
        = .ok ⟨2, 3, .single⟩ ∧
      init_ifstat ⟨[none, some ⟨"em1", 0, 0⟩, some ⟨"em1", 5, 5⟩]⟩ (some "lo0")
        = .error (.interface_not_available "lo0") := by
  have h := init_ifstat_resolve ⟨[none, some ⟨"em1", 0, 0⟩, some ⟨"em1", 5, 5⟩]⟩
  refine ⟨(h "em1" (by decide)).2.1 2 (by decide) ⟨by decide, ⟨"em1", 0, 0⟩, rfl, rfl⟩ ?_, ?_⟩
  · intro j hj hn
    obtain ⟨h1, d, hd, -⟩ := hn
    have hj1 : j = 1 := by omega
    subst hj1
    simp at hd
  · rw [(h "lo0" (by decide)).1]
    rintro ⟨i, hi, h1, d, hd, hname⟩
    simp only [List.length_cons, List.length_nil] at hi
    have : i = 1 ∨ i = 2 ∨ i = 3 := by omega
    rcases this with h | h | h <;> subst h <;> simp at hd <;> subst hd <;> simp at hname

/-- The loop of `getiobytes_all` with `fuel` iterations left before `i` reaches
`iface_count`: it adds, modulo 2^64, the bytes of the next `fuel` rows. -/
theorem getiobytes_all_loop_sum (s : IfStat) (m : IfMib) (fuel i acc : Nat)
    (hacc : acc < 2 ^ 64) (hinv : (i : Int) + fuel = s.iface_count) :
    getiobytes_all_loop s m fuel i acc =
      (acc + (((m.rows.drop i).take fuel).map row_bytes).sum) % 2 ^ 64 := by
  induction fuel generalizing i acc with
  | zero =>
    simp only [getiobytes_all_loop, List.take_zero, List.map_nil, List.sum_nil, Nat.add_zero]
    exact (Nat.mod_eq_of_lt hacc).symm
  | succ fuel ih =>
    have hlt : (i : Int) < s.iface_count := by omega
    have hcast : (((i + 1 : Nat) : Int)) = (i : Int) + 1 := by push_cast; rfl
    rw [getiobytes_all_loop, if_pos hlt, getifmibdata_succ]
    by_cases hi : i < m.rows.length
    · rw [List.drop_eq_getElem_cons hi, List.take_succ_cons, List.map_cons, List.sum_cons,
        List.getElem?_eq_getElem hi]
      cases hrow : m.rows[i] with
      | none =>
        simp only [Option.join, Option.bind, row_bytes, Nat.zero_add]
        rw [← hcast]
        exact ih (i + 1) acc hacc (by omega)
      | some d =>
        simp only [Option.join, Option.bind, id, row_bytes]
        rw [← hcast, ih (i + 1) _ (Nat.mod_lt _ (by norm_num)) (by omega)]
        omega
    · rw [List.getElem?_eq_none (by omega)]
      simp only [Option.join, Option.bind]
      rw [← hcast, ih (i + 1) acc hacc (by omega),
        List.drop_eq_nil_of_le (by omega), List.drop_eq_nil_of_le (by omega)]
      simp

/-- C10, as amended: every read through the all-interfaces handle returns,
modulo 2^64, the sum of received plus transmitted bytes over the rows with index
1..`iface_count`, the count taken at startup, that are readable at the time of
the read; a row that has disappeared since is skipped and contributes nothing.
With a table of fewer than 2^31 rows at startup `iface_count` is that number of
rows. -/
theorem getiobytes_all_sum (m : IfMib) :
    (∀ s : IfStat, getiobytes_all s m =
      (((m.rows.take s.iface_count.toNat).map row_bytes).sum) % 2 ^ 64) ∧
    (∀ m0 : IfMib, m0.rows.length < 2 ^ 31 →
      ∃ s, init_ifstat m0 none = .ok s ∧
        getiobytes s m = (((m.rows.take m0.rows.length).map row_bytes).sum) % 2 ^ 64) := by
  have hall : ∀ s : IfStat, getiobytes_all s m =
      (((m.rows.take s.iface_count.toNat).map row_bytes).sum) % 2 ^ 64 := by
    intro s
    unfold getiobytes_all
    by_cases hneg : 0 ≤ s.iface_count
    · have h := getiobytes_all_loop_sum s m s.iface_count.toNat 0 0 (by norm_num) (by omega)
      simpa using h
    · have h0 : s.iface_count.toNat = 0 := by omega
      rw [h0]
      simp [getiobytes_all_loop]
  refine ⟨hall, fun m0 hc => ?_⟩
  obtain ⟨hcount, -⟩ := init_ifstat_count m0 hc
  refine ⟨⟨0, m0.rows.length, .all⟩, by simp only [init_ifstat, hcount], ?_⟩
  have h := hall ⟨0, m0.rows.length, .all⟩
  simpa [getiobytes] using h

/-- C10, witness: `em0` and `tun0` enumerated at startup; at the read `em0` has
disappeared and only the 5 + 7 bytes of `tun0` are counted. -/
theorem getiobytes_all_sum_witness :
    ∃ s, init_ifstat ⟨[some ⟨"em0", 0, 0⟩, some ⟨"tun0", 0, 0⟩]⟩ none = .ok s ∧
      getiobytes s ⟨[none, some ⟨"tun0", 5, 7⟩]⟩ = 12 := by
  obtain ⟨s, hs, hread⟩ := (getiobytes_all_sum ⟨[none, some ⟨"tun0", 5, 7⟩]⟩).2
    ⟨[some ⟨"em0", 0, 0⟩, some ⟨"tun0", 0, 0⟩]⟩ (by decide)
  exact ⟨s, hs, by rw [hread]; decide⟩

/-- C10, counterexample: an interface created after startup is enumerable at the
read but not counted (the read returns 10, the sum over the table is 15), and
the sum is taken modulo 2^64 (counters of 2^63 and 2^63 read as 0). -/
theorem getiobytes_all_not_sum_of_current_table :
    (∃ s, init_ifstat startup_mib none = .ok s ∧ getiobytes s grown_mib = 10 ∧
      (grown_mib.rows.map row_bytes).sum = 15) ∧
    (∃ s, init_ifstat wrapping_mib none = .ok s ∧ getiobytes s wrapping_mib = 0 ∧
      (wrapping_mib.rows.map row_bytes).sum = 2 ^ 64) :=
  ⟨⟨⟨0, 1, .all⟩, rfl, by decide, by decide⟩,
   ⟨⟨0, 1, .all⟩, rfl, by decide, by decide⟩⟩

/-! ## sample.c: a session in which no packet is truncated returns -/

theorem register_packet_ok (o : ByteOrder) (p : Packet) (s : Capture)
    (h : p.h.len = p.h.caplen) : ∃ s', register_packet o p s = .ok s' := by
  unfold register_packet
  simp only [h, ne_eq, not_true_eq_false, if_false]
  split_ifs
  · exact ⟨_, rfl⟩
  · exact ⟨_, rfl⟩

theorem pcap_dispatch_ok (o : ByteOrder) (frames : List Packet)
    (h : ∀ p ∈ frames, p.h.len = p.h.caplen) (s : Capture) (n : Int) :
    ∃ r, pcap_dispatch o frames s n = .ok r := by
  induction frames generalizing s n with
  | nil => exact ⟨_, rfl⟩
  | cons p rest ih =>
    unfold pcap_dispatch
    split_ifs
    · exact ⟨_, rfl⟩
    · exact ⟨_, rfl⟩
    · obtain ⟨s', hs'⟩ := register_packet_ok o p s (h p (List.mem_cons_self _ _))
      rw [hs']
      exact ih (fun q hq => h q (List.mem_cons_of_mem _ hq)) s' (n + 1)

theorem sample_single_ok (o : ByteOrder) (linktype : Int) (frames : List Packet) (size : Nat)
    (h : ∀ p ∈ frames, p.h.len = p.h.caplen) :
    ∃ r, sample_single o linktype frames size = .ok r := by
  unfold sample_single
  obtain ⟨r, hr⟩ := pcap_dispatch_ok o frames h
    (write32 o (write32 o 65535 (write32 o 0 (write32 o 0 (write16 o 4 (write16 o 2
      (write32 o 2712847316 ⟨[], toI64 size, false, linktype⟩)))))).linktype
      (write32 o 65535 (write32 o 0 (write32 o 0 (write16 o 4 (write16 o 2
      (write32 o 2712847316 ⟨[], toI64 size, false, linktype⟩))))))) 0
  simp only [hr]
  exact ⟨_, rfl⟩

theorem sample_ok (o : ByteOrder) (iface : Option String) (linktype : Int)
    (frames : List Packet) (size : Nat) (h : ∀ p ∈ frames, p.h.len = p.h.caplen) :
    ∃ r, sample o iface linktype frames size = .ok r := by
  unfold sample
  cases iface with
  | none => exact ⟨_, rfl⟩
  | some name =>
    obtain ⟨r, hr⟩ := sample_single_ok o linktype frames size h
    exact ⟨some r, by simp [hr, Except.map]⟩

/-! ## sample.c: bytes of the fields -/

theorem le_bytes_four (v : Nat) :
    le_bytes 4 v = [v % 256, v / 256 % 256, v / 256 / 256 % 256, v / 256 / 256 / 256 % 256] := rfl

theorem host_bytes_toU32 (o : ByteOrder) (v : Nat) :
    host_bytes o 4 (toU32 (v : Int)) = host_bytes o 4 v := by
  have h : toU32 (v : Int) = v % 2 ^ 32 := by
    unfold toU32
    omega
  have hle : le_bytes 4 (v % 2 ^ 32) = le_bytes 4 v := by
    simp only [le_bytes_four, List.cons.injEq, and_true]
    refine ⟨by omega, by omega, by omega, by omega⟩
  rw [h]
  cases o <;> simp only [host_bytes, hle]

theorem length_host_bytes (o : ByteOrder) (n v : Nat) : (host_bytes o n v).length = n := by
  have h : ∀ n v, (le_bytes n v).length = n := by
    intro n
    induction n with
    | zero => intro v; rfl
    | succ n ih => intro v; simp [le_bytes, ih]
  cases o <;> simp [host_bytes, h]

theorem length_pcap_header (o : ByteOrder) (linktype : Int) :
    (pcap_header o linktype).length = 24 := by
  simp [pcap_header, length_host_bytes]

theorem length_pcap_record (o : ByteOrder) (p : Packet) :
    (pcap_record o p).length = 16 + p.bytes.length := by
  simp only [pcap_record, pcap_record_header, List.length_append, length_host_bytes]

theorem read_u32_host_bytes (o : ByteOrder) (v : Nat) (tail : List Nat) :
    read_u32 o (host_bytes o 4 v ++ tail) = some (v % 2 ^ 32, tail) := by
  cases o <;> simp [host_bytes, le_bytes, read_u32, host_value, le_value] <;> omega

theorem read_u16_host_bytes (o : ByteOrder) (v : Nat) (tail : List Nat) :
    read_u16 o (host_bytes o 2 v ++ tail) = some (v % 2 ^ 16, tail) := by
  cases o <;> simp [host_bytes, le_bytes, read_u16, host_value, le_value] <;> omega

/-! ## sample.c: the callback and the dispatch loop -/

/-- On a packet captured in full the callback appends one record and charges
the budget. -/
theorem register_packet_full (o : ByteOrder) (p : Packet) (s : Capture)
    (hwf : p.well_formed) (hlen : p.h.len = p.h.caplen) :
    register_packet o p s =
      .ok ⟨s.out ++ pcap_record o p, toI64 (s.bytes_left - p.h.len),
        s.break_loop || decide (toI64 (s.bytes_left - p.h.len) < 0), s.linktype⟩ := by
  obtain ⟨hb, -, -⟩ := hwf
  have htake : List.take p.h.len p.bytes = p.bytes := by
    rw [hlen, ← hb]
    exact List.take_length _
  unfold register_packet
  simp only [write32, hlen, ne_eq, not_true_eq_false, if_false, host_bytes_toU32]
  rw [hlen] at htake
  by_cases hneg : toI64 (s.bytes_left - (p.h.caplen : Int)) < 0
  · simp [hneg, pcap_record, pcap_record_header, hlen, htake]
  · simp [hneg, pcap_record, pcap_record_header, hlen, htake]

/-- On a truncated packet the callback writes the four header fields and then
fails its assertion. -/
theorem register_packet_truncated (o : ByteOrder) (p : Packet) (s : Capture)
    (hlen : p.h.len ≠ p.h.caplen) :
    register_packet o p s =
      .error { s with out := s.out ++ (host_bytes o 4 (toU32 p.h.ts.tv_sec) ++
        host_bytes o 4 (toU32 p.h.ts.tv_usec) ++ host_bytes o 4 p.h.len ++
        host_bytes o 4 p.h.len) } := by
  unfold register_packet
  simp [write32, hlen, host_bytes_toU32]

/-- Once `pcap_breakloop` has been called after at least one packet, the loop
hands out nothing more. -/
theorem pcap_dispatch_broken (o : ByteOrder) (frames : List Packet) (s : Capture) (n : Int)
    (hb : s.break_loop = true) (hn : n ≠ 0) : pcap_dispatch o frames s n = .ok (s, n) := by
  cases frames with
  | nil => rfl
  | cons p rest => simp [pcap_dispatch, hb, hn]

theorem toI64_sub_len (b len : Nat) (hb : b < 2 ^ 63) (hl : len < 2 ^ 32) :
    toI64 ((b : Int) - len) = (b : Int) - len := by
  unfold toI64
  omega

/-- The dispatch loop when it returns: it has appended the records of the first
`k` packets, all of them captured in full, and when the budget left is a
non-negative `b`, `k` is `written_count b frames`. -/
theorem pcap_dispatch_returns (o : ByteOrder) (frames : List Packet)
    (hwf : ∀ p ∈ frames, p.well_formed)
    (s : Capture) (n : Int) (hb : s.break_loop = false) (hn : 0 ≤ n)
    (s' : Capture) (n' : Int) (hrun : pcap_dispatch o frames s n = .ok (s', n')) :
    ∃ k : Nat, n' = n + (k : Nat) ∧ k ≤ frames.length ∧
      s'.out = s.out ++ pcap_records o (frames.take k) ∧
      (∀ p ∈ frames.take k, p.h.len = p.h.caplen) ∧
      ∀ b : Nat, b < 2 ^ 63 → s.bytes_left = b → k = written_count b frames := by
  induction frames generalizing s n with
  | nil =>
    simp only [pcap_dispatch, Except.ok.injEq, Prod.mk.injEq] at hrun
    obtain ⟨hs, hn'⟩ := hrun
    subst hs hn'
    exact ⟨0, by simp, le_refl _, by simp [pcap_records], by simp, fun b _ _ => rfl⟩
  | cons p rest ih =>
    have hp := hwf p (List.mem_cons_self _ _)
    have hrest_wf : ∀ q ∈ rest, q.well_formed := fun q hq => hwf q (List.mem_cons_of_mem _ hq)
    unfold pcap_dispatch at hrun
    simp only [hb, Bool.false_eq_true, if_false] at hrun
    by_cases hpl : p.h.len = p.h.caplen
    · simp only [register_packet_full o p s hp hpl, hb, Bool.false_or] at hrun
      by_cases hneg : toI64 (s.bytes_left - (p.h.len : Int)) < 0
      · rw [pcap_dispatch_broken o rest _ (n + 1) (by simp [hneg]) (by omega)] at hrun
        simp only [Except.ok.injEq, Prod.mk.injEq] at hrun
        obtain ⟨hs, hn'⟩ := hrun
        subst hs hn'
        refine ⟨1, by simp, by simp, by simp [pcap_records], ?_, ?_⟩
        · intro q hq
          simp only [List.take_succ_cons, List.take_zero, List.mem_singleton] at hq
          rw [hq]
          exact hpl
        · intro b hb63 hbl
          rw [hbl, toI64_sub_len b p.h.len hb63 hp.2.2] at hneg
          have : b < p.h.len := by omega
          simp [written_count, this]
      · obtain ⟨k, hk0, hk, hout, hfull, hcount⟩ := ih hrest_wf
          ⟨s.out ++ pcap_record o p, toI64 (s.bytes_left - p.h.len),
            decide (toI64 (s.bytes_left - p.h.len) < 0), s.linktype⟩ (n + 1)
          (by simp [hneg]) (by omega) hrun
        refine ⟨k + 1, by rw [hk0]; push_cast; ring, by simp [hk], ?_, ?_, ?_⟩
        · simp [hout, pcap_records]
        · intro q hq
          rw [List.take_succ_cons, List.mem_cons] at hq
          rcases hq with hq | hq
          · rw [hq]; exact hpl
          · exact hfull q hq
        · intro b hb63 hbl
          rw [hbl, toI64_sub_len b p.h.len hb63 hp.2.2] at hneg
          have hge : ¬ b < p.h.len := by omega
          have hk' := hcount (b - p.h.len) (by omega)
            (by simp only; rw [hbl, toI64_sub_len b p.h.len hb63 hp.2.2]; omega)
          simp [written_count, hge, hk']
    · rw [register_packet_truncated o p s hpl] at hrun
      exact absurd hrun (by simp)

/-- The dispatch loop on packets captured in full: it returns, having appended
the records of the first `k` packets, and when the budget left is a
non-negative `b`, `k` is `written_count b frames`. -/
theorem pcap_dispatch_full (o : ByteOrder) (frames : List Packet)
    (hwf : ∀ p ∈ frames, p.well_formed) (hlen : ∀ p ∈ frames, p.h.len = p.h.caplen)
    (s : Capture) (n : Int) (hb : s.break_loop = false) (hn : 0 ≤ n) :
    ∃ s' k, pcap_dispatch o frames s n = .ok (s', n + (k : Nat)) ∧ k ≤ frames.length ∧
      s'.out = s.out ++ pcap_records o (frames.take k) ∧
      ∀ b : Nat, b < 2 ^ 63 → s.bytes_left = b → k = written_count b frames := by
  obtain ⟨⟨s', n'⟩, hrun⟩ := pcap_dispatch_ok o frames hlen s n
  obtain ⟨k, hk0, hk, hout, -, hcount⟩ := pcap_dispatch_returns o frames hwf s n hb hn s' n' hrun
  exact ⟨s', k, by rw [hrun, hk0], hk, hout, hcount⟩

/-- The dispatch loop reaching a truncated packet: when the packets before it
are captured in full and fit in the budget left, the loop hands it to the
callback, which aborts. -/
theorem pcap_dispatch_truncated (o : ByteOrder) (before after : List Packet) (bad : Packet)
    (hwf : ∀ p ∈ before, p.well_formed) (hlen : ∀ p ∈ before, p.h.len = p.h.caplen)
    (hbad : bad.h.len ≠ bad.h.caplen)
    (s : Capture) (n : Int) (b : Nat) (hb : s.break_loop = false) (hbl : s.bytes_left = b)
    (hb63 : b < 2 ^ 63) (hfit : (before.map fun p => p.h.len).sum ≤ b) :
    ∃ s', pcap_dispatch o (before ++ bad :: after) s n = .error s' ∧
      s'.out = s.out ++ pcap_records o before ++
        (host_bytes o 4 (toU32 bad.h.ts.tv_sec) ++ host_bytes o 4 (toU32 bad.h.ts.tv_usec) ++
          host_bytes o 4 bad.h.len ++ host_bytes o 4 bad.h.len) := by
  induction before generalizing s n b with
  | nil =>
    refine ⟨{ s with out := s.out ++ (host_bytes o 4 (toU32 bad.h.ts.tv_sec) ++
        host_bytes o 4 (toU32 bad.h.ts.tv_usec) ++ host_bytes o 4 bad.h.len ++
        host_bytes o 4 bad.h.len) }, ?_, ?_⟩
    · simp only [List.nil_append, pcap_dispatch, hb, Bool.false_eq_true, if_false,
        register_packet_truncated o bad s hbad]
    · simp [pcap_records]
  | cons p rest ih =>
    have hp := hwf p (List.mem_cons_self _ _)
    have hpl := hlen p (List.mem_cons_self _ _)
    simp only [List.map_cons, List.sum_cons] at hfit
    have hsub : toI64 (s.bytes_left - (p.h.len : Int)) = ((b - p.h.len : Nat) : Int) := by
      rw [hbl, toI64_sub_len b p.h.len hb63 hp.2.2]
      omega
    have hneg : ¬ toI64 (s.bytes_left - (p.h.len : Int)) < 0 := by
      rw [hsub]
      omega
    obtain ⟨s', hrun, hout⟩ := ih (fun q hq => hwf q (List.mem_cons_of_mem _ hq))
      (fun q hq => hlen q (List.mem_cons_of_mem _ hq))
      ⟨s.out ++ pcap_record o p, toI64 (s.bytes_left - p.h.len),
        decide (toI64 (s.bytes_left - p.h.len) < 0), s.linktype⟩ (n + 1) (b - p.h.len)
      (by simp [hneg]) hsub (by omega) (by omega)
    refine ⟨s', ?_, ?_⟩
    · simp only [List.cons_append, pcap_dispatch, hb, Bool.false_eq_true, if_false,
        register_packet_full o p s hp hpl, Bool.false_or]
      exact hrun
    · rw [hout]
      simp [pcap_records]

/-- The dispatch loop is aborted only by the callback, on a truncated packet. -/
theorem pcap_dispatch_error (o : ByteOrder) (frames : List Packet) (s : Capture) (n : Int)
    (s' : Capture) (h : pcap_dispatch o frames s n = .error s') :
    ∃ before bad after s0, frames = before ++ bad :: after ∧ bad.h.len ≠ bad.h.caplen ∧
      register_packet o bad s0 = .error s' := by
  induction frames generalizing s n with
  | nil => simp [pcap_dispatch] at h
  | cons p rest ih =>
    unfold pcap_dispatch at h
    split_ifs at h with hb hn
    cases hreg : register_packet o p s with
    | error e =>
      rw [hreg] at h
      simp only [Except.error.injEq] at h
      subst h
      refine ⟨[], p, rest, s, rfl, ?_, hreg⟩
      intro heq
      obtain ⟨s1, hs1⟩ := register_packet_ok o p s heq
      rw [hs1] at hreg
      exact absurd hreg (by simp)
    | ok s1 =>
      rw [hreg] at h
      obtain ⟨before, bad, after, s0, hf, hbad, hs0⟩ := ih s1 (n + 1) h
      exact ⟨p :: before, bad, after, s0, by simp [hf], hbad, hs0⟩

theorem frame_bytes_cons (p : Packet) (ps : List Packet) :
    frame_bytes (p :: ps) = p.h.len + frame_bytes ps := by
  simp [frame_bytes]

/-- The number `written_count b frames` is the length of the shortest run of
leading packets whose total length is above `b`, or the number of all packets
when there is no such run. -/
theorem written_count_spec (frames : List Packet) (b : Nat) :
    written_count b frames ≤ frames.length ∧
    ((b < frame_bytes (frames.take (written_count b frames)) ∧
        ∀ j < written_count b frames, frame_bytes (frames.take j) ≤ b) ∨
      (written_count b frames = frames.length ∧ ∀ j, frame_bytes (frames.take j) ≤ b)) := by
  induction frames generalizing b with
  | nil => exact ⟨le_refl _, Or.inr ⟨rfl, fun j => by simp [frame_bytes]⟩⟩
  | cons p rest ih =>
    by_cases hlt : b < p.h.len
    · simp only [written_count, hlt, if_true]
      refine ⟨by simp, Or.inl ⟨by simpa [frame_bytes] using hlt, ?_⟩⟩
      intro j hj
      have : j = 0 := by omega
      simp [this, frame_bytes]
    · simp only [written_count, hlt, if_false]
      obtain ⟨hle, hcase⟩ := ih (b - p.h.len)
      refine ⟨by simpa using hle, ?_⟩
      rcases hcase with ⟨hover, hunder⟩ | ⟨hall, hunder⟩
      · left
        refine ⟨?_, ?_⟩
        · rw [List.take_succ_cons, frame_bytes_cons]
          omega
        · intro j hj
          cases j with
          | zero => simp [frame_bytes]
          | succ j =>
            rw [List.take_succ_cons, frame_bytes_cons]
            have := hunder j (by omega)
            omega
      · right
        refine ⟨by simp [hall], ?_⟩
        intro j
        cases j with
        | zero => simp [frame_bytes]
        | succ j =>
          rw [List.take_succ_cons, frame_bytes_cons]
          have := hunder j
          omega

/-- The seven writes at the start of `sample_single` produce the global header. -/
theorem sample_single_eq (o : ByteOrder) (linktype : Int) (frames : List Packet) (size : Nat) :
    sample_single o linktype frames size =
      match pcap_dispatch o frames ⟨pcap_header o linktype, toI64 size, false, linktype⟩ 0 with
      | .error s => .error s
      | .ok (s, n) => .ok ⟨s.out, if n = -2 then 0 else n, toU64 (size - s.bytes_left)⟩ := by
  have h1 : toU32 2712847316 = 2712847316 := by decide
  have h2 : toU32 0 = 0 := by decide
  have h3 : toU32 65535 = 65535 := by decide
  have h4 : (2 : Int) % 2 ^ 16 = 2 := by decide
  have h5 : (4 : Int) % 2 ^ 16 = 4 := by decide
  unfold sample_single
  simp [write32, write16, pcap_header, h1, h2, h3, h4, h5]

theorem length_pcap_records (o : ByteOrder) (ps : List Packet)
    (hwf : ∀ p ∈ ps, p.well_formed) (hlen : ∀ p ∈ ps, p.h.len = p.h.caplen) :
    (pcap_records o ps).length = (ps.map fun p => 16 + p.h.len).sum := by
  induction ps with
  | nil => rfl
  | cons p rest ih =>
    have hp := hwf p (List.mem_cons_self _ _)
    have hpl := hlen p (List.mem_cons_self _ _)
    simp only [pcap_records, List.length_append, length_pcap_record, List.map_cons,
      List.sum_cons]
    rw [ih (fun q hq => hwf q (List.mem_cons_of_mem _ hq))
      (fun q hq => hlen q (List.mem_cons_of_mem _ hq)), hp.1, hpl]

/-- A session on packets captured in full returns, and its file is the global
header followed by the records of the packets it counted. -/
theorem sample_single_full (o : ByteOrder) (linktype : Int) (frames : List Packet) (size : Nat)
    (hwf : ∀ p ∈ frames, p.well_formed) (hlen : ∀ p ∈ frames, p.h.len = p.h.caplen) :
    ∃ r k, sample_single o linktype frames size = .ok r ∧ r.packets = (k : Nat) ∧
      k ≤ frames.length ∧
      r.file = pcap_header o linktype ++ pcap_records o (frames.take k) ∧
      (size < 2 ^ 63 → k = written_count size frames) := by
  obtain ⟨s', k, hrun, hk, hout, hcount⟩ := pcap_dispatch_full o frames hwf hlen
    ⟨pcap_header o linktype, toI64 size, false, linktype⟩ 0 rfl (le_refl _)
  have hne : ¬ ((0 : Int) + (k : Nat) = -2) := by omega
  refine ⟨⟨s'.out, (k : Nat), toU64 (size - s'.bytes_left)⟩, k, ?_, rfl, hk, hout, ?_⟩
  · rw [sample_single_eq, hrun]
    simp only [zero_add] at hne ⊢
    rw [if_neg hne]
  · intro hsize
    refine hcount size hsize ?_
    show toI64 (size : Int) = (size : Int)
    unfold toI64
    omega

theorem zero_packet_well_formed (n : Nat) (h : n < 2 ^ 32) : (zero_packet n).well_formed := by
  refine ⟨by simp [zero_packet], h, h⟩

theorem zero_packet_len (n : Nat) : (zero_packet n).h.len = n := rfl

theorem zero_packet_caplen (n : Nat) : (zero_packet n).h.caplen = n := rfl

/-! ## The capture file format: decoding what was encoded -/

theorem read_header_pcap_header (o : ByteOrder) (linktype : Int) (tail : List Nat) :
    read_header o (pcap_header o linktype ++ tail) =
      some (⟨0xa1b2c3d4, 2, 4, 0, 0, 65535, toU32 linktype⟩, tail) := by
  have hl : toU32 linktype % 2 ^ 32 = toU32 linktype := by
    unfold toU32
    omega
  simp only [pcap_header, List.append_assoc, read_header, read_u32_host_bytes,
    read_u16_host_bytes, hl]
  rfl

theorem read_record_pcap_record (o : ByteOrder) (p : Packet) (tail : List Nat)
    (hwf : p.well_formed)
    (hsec : 0 ≤ p.h.ts.tv_sec ∧ p.h.ts.tv_sec < 2 ^ 32)
    (husec : 0 ≤ p.h.ts.tv_usec ∧ p.h.ts.tv_usec < 2 ^ 32) :
    read_record o (pcap_record o p ++ tail) = some (record_of p, tail) := by
  obtain ⟨hb, hcap, hlen⟩ := hwf
  have h1 : toU32 p.h.ts.tv_sec % 2 ^ 32 = p.h.ts.tv_sec.toNat := by
    unfold toU32
    omega
  have h2 : toU32 p.h.ts.tv_usec % 2 ^ 32 = p.h.ts.tv_usec.toNat := by
    unfold toU32
    omega
  have h3 : p.h.caplen % 2 ^ 32 = p.h.caplen := Nat.mod_eq_of_lt hcap
  have h4 : p.h.len % 2 ^ 32 = p.h.len := Nat.mod_eq_of_lt hlen
  have h5 : ¬ (p.bytes ++ tail).length < p.h.caplen := by
    rw [List.length_append, hb]
    omega
  simp only [pcap_record, pcap_record_header, List.append_assoc, read_record,
    read_u32_host_bytes, h1, h2, h3, h4, h5, if_false, List.take_left' hb,
    List.drop_left' hb, record_of]

theorem read_records_pcap_records (o : ByteOrder) (ps : List Packet)
    (hwf : ∀ p ∈ ps, p.well_formed)
    (hsec : ∀ p ∈ ps, 0 ≤ p.h.ts.tv_sec ∧ p.h.ts.tv_sec < 2 ^ 32)
    (husec : ∀ p ∈ ps, 0 ≤ p.h.ts.tv_usec ∧ p.h.ts.tv_usec < 2 ^ 32)
    (fuel : Nat) (hfuel : ps.length ≤ fuel) :
    read_records o fuel (pcap_records o ps) = some (ps.map record_of) := by
  induction ps generalizing fuel with
  | nil => cases fuel <;> simp [read_records, pcap_records]
  | cons p rest ih =>
    cases fuel with
    | zero => simp at hfuel
    | succ fuel =>
      have hne : (pcap_record o p ++ pcap_records o rest).isEmpty = false := by
        have hlen := length_pcap_record o p
        cases hrec : pcap_record o p with
        | nil => rw [hrec] at hlen; simp at hlen; omega
        | cons b bs => rfl
      simp only [pcap_records, read_records, hne, Bool.false_eq_true, if_false,
        read_record_pcap_record o p _ (hwf p (List.mem_cons_self _ _))
          (hsec p (List.mem_cons_self _ _)) (husec p (List.mem_cons_self _ _)),
        ih (fun q hq => hwf q (List.mem_cons_of_mem _ hq))
          (fun q hq => hsec q (List.mem_cons_of_mem _ hq))
          (fun q hq => husec q (List.mem_cons_of_mem _ hq)) fuel
          (by simpa using hfuel), List.map_cons]

theorem length_le_length_pcap_records (o : ByteOrder) (ps : List Packet) :
    ps.length ≤ (pcap_records o ps).length := by
  induction ps with
  | nil => simp [pcap_records]
  | cons p rest ih =>
    simp only [pcap_records, List.length_cons, List.length_append, length_pcap_record]
    omega

/-! ## sample.c: the claims about one capture session -/

/-- C5, as amended: for every capture session on a named interface that returns,
the bytes written are the 24-byte global header (magic 0xa1b2c3d4, version 2.4,
thiszone 0, sigfigs 0, snaplen 65535, link type of the handle) followed, for
each written packet in order, by its 16-byte record header (seconds,
microseconds, captured length, original length) and its bytes, every field in
host byte order; the size is 24 plus the sum of 16 + length over the written
packets.  A session whose packets are all captured in full does return. -/
theorem sample_file_layout (o : ByteOrder) (iface : String) (linktype : Int)
    (frames : List Packet) (size : Nat) (hwf : ∀ p ∈ frames, p.well_formed) :
    (∀ res, sample o (some iface) linktype frames size = .ok res →
      ∃ r, res = some r ∧ 0 ≤ r.packets ∧ r.packets.toNat ≤ frames.length ∧
        r.file = pcap_header o linktype ++ pcap_records o (frames.take r.packets.toNat) ∧
        r.file.length =
          24 + ((frames.take r.packets.toNat).map fun p => 16 + p.h.len).sum) ∧
    ((∀ p ∈ frames, p.h.len = p.h.caplen) →
      ∃ r, sample o (some iface) linktype frames size = .ok (some r)) := by
  constructor
  · intro res hres
    simp only [sample, sample_single_eq] at hres
    cases hrun : pcap_dispatch o frames ⟨pcap_header o linktype, toI64 size, false, linktype⟩ 0 with
    | error e =>
      rw [hrun] at hres
      simp [Except.map] at hres
    | ok sn =>
      obtain ⟨s', n'⟩ := sn
      rw [hrun] at hres
      simp only [Except.map, Except.ok.injEq] at hres
      obtain ⟨k, hk0, hk, hout, hfull, -⟩ := pcap_dispatch_returns o frames hwf _ 0 rfl
        (le_refl _) s' n' hrun
      have hn' : n' = (k : Nat) := by rw [hk0]; simp
      have hne : ¬ (n' = -2) := by omega
      have hpk : (if n' = -2 then (0 : Int) else n') = (k : Nat) := by rw [if_neg hne]; exact hn'
      subst hres
      rw [hpk]
      refine ⟨⟨s'.out, (k : Nat), toU64 (size - s'.bytes_left)⟩, rfl, ?_, ?_, ?_, ?_⟩
      · show (0 : Int) ≤ (k : Nat)
        omega
      · show ((k : Nat) : Int).toNat ≤ frames.length
        rw [Int.toNat_ofNat]
        exact hk
      · show s'.out = pcap_header o linktype ++ pcap_records o (frames.take ((k : Nat) : Int).toNat)
        rw [Int.toNat_ofNat]
        exact hout
      · show s'.out.length =
          24 + ((frames.take ((k : Nat) : Int).toNat).map fun p => 16 + p.h.len).sum
        rw [Int.toNat_ofNat, hout, List.length_append]
        show (pcap_header o linktype).length + _ = _
        rw [length_pcap_header, length_pcap_records o _
          (fun p hp => hwf p (List.mem_of_mem_take hp)) hfull]
  · intro hlen
    obtain ⟨r, hr⟩ := sample_single_ok o linktype frames size hlen
    exact ⟨r, by simp [sample, hr, Except.map]⟩

/-- C5, witness: two packets on a little-endian host; the file starts with the
bytes d4 c3 b2 a1 02 00 04 00 and is 24 + (16 + 2) + (16 + 3) bytes long. -/
theorem sample_file_layout_witness :
    (∀ p ∈ [zero_packet 2, ⟨⟨⟨1, 2⟩, 3, 3⟩, [1, 2, 3]⟩], p.well_formed) ∧
    (∃ r, sample .little (some "em0") 1 [zero_packet 2, ⟨⟨⟨1, 2⟩, 3, 3⟩, [1, 2, 3]⟩] 1000
        = .ok (some r) ∧
      r.file = pcap_header .little 1 ++ pcap_records .little
        (List.take r.packets.toNat [zero_packet 2, ⟨⟨⟨1, 2⟩, 3, 3⟩, [1, 2, 3]⟩]) ∧
      r.file.length = 24 + ((List.take r.packets.toNat
        [zero_packet 2, (⟨⟨⟨1, 2⟩, 3, 3⟩, [1, 2, 3]⟩ : Packet)]).map fun p => 16 + p.h.len).sum) ∧
    pcap_header .little 1 =
      [0xd4, 0xc3, 0xb2, 0xa1, 2, 0, 4, 0, 0, 0, 0, 0, 0, 0, 0, 0, 0xff, 0xff, 0, 0, 1, 0, 0, 0] ∧
    (sample .little (some "em0") 1 [zero_packet 2, ⟨⟨⟨1, 2⟩, 3, 3⟩, [1, 2, 3]⟩] 1000).toOption.map
        (fun r => r.map fun r => r.file.length) = some (some 61) := by
  have h := sample_file_layout .little "em0" 1 [zero_packet 2, ⟨⟨⟨1, 2⟩, 3, 3⟩, [1, 2, 3]⟩]
    1000 (by decide)
  obtain ⟨r, hr⟩ := h.2 (by decide)
  obtain ⟨r', hr', -, -, hfile, hsize⟩ := h.1 (some r) hr
  cases hr'
  exact ⟨by decide, ⟨r, hr, hfile, hsize⟩, by decide, by decide⟩

/-- C5, counterexample: a session on `em0` whose second packet is truncated is
aborted having written 57 = 24 + 17 + 16 bytes, the last 16 being the record
header of the truncated packet with no bytes after it.  These bytes are not the
global header followed by the records of any leading run of the packets, their
number is not 24 plus the sum of 16 + length over any such run, and they do not
decode as a header followed by records. -/
theorem sample_file_layout_fails_on_truncated :
    ∃ s, sample .little (some "em0") 1 truncated_session 100 = .error s ∧
      s.out.length = 57 ∧
      s.out.drop 41 = [7, 0, 0, 0, 9, 0, 0, 0, 3, 0, 0, 0, 3, 0, 0, 0] ∧
      (∀ k, s.out ≠ pcap_header .little 1 ++ pcap_records .little (truncated_session.take k)) ∧
      (∀ k, s.out.length ≠
        24 + ((truncated_session.take k).map fun p => 16 + p.h.len).sum) ∧
      read_pcap .little s.out = none := by
  obtain ⟨s, hrun, hout⟩ := pcap_dispatch_truncated .little [zero_packet 1] [zero_packet 1]
    truncated_packet (by decide) (by decide) (by decide)
    ⟨pcap_header .little 1, toI64 ((100 : Nat) : Int), false, 1⟩ 0 100 rfl (by decide)
    (by decide) (by decide)
  have hbytes : s.out = pcap_header .little 1 ++ pcap_records .little [zero_packet 1] ++
      [7, 0, 0, 0, 9, 0, 0, 0, 3, 0, 0, 0, 3, 0, 0, 0] := by
    rw [hout]
    rfl
  have hsample : sample .little (some "em0") 1 truncated_session 100 = .error s := by
    have hframes : truncated_session = [zero_packet 1] ++ truncated_packet :: [zero_packet 1] :=
      rfl
    simp only [sample, sample_single_eq, hframes, hrun, Except.map]
  refine ⟨s, hsample, ?_⟩
  rw [hbytes]
  refine ⟨by decide, by decide, ?_, ?_, by decide⟩
  · intro k h
    have hlen := congrArg List.length h
    rcases k with _ | _ | _ | k
    · revert hlen; decide
    · revert hlen; decide
    · revert hlen; decide
    · have ht : List.take (k + 1 + 1 + 1) truncated_session = truncated_session := by
        simp [truncated_session]
      rw [ht] at hlen
      revert hlen; decide
  · intro k
    rcases k with _ | _ | _ | k
    · decide
    · decide
    · decide
    · have ht : List.take (k + 1 + 1 + 1) truncated_session = truncated_session := by
        simp [truncated_session]
      rw [ht]
      decide

/-- C3, as amended: for every budget below 2^63 and every sequence of packets
captured in full, the session writes exactly the records of the first `k`
packets, where the first `k` packets are the shortest leading run whose total
length is strictly above the budget, or `k` is the number of all packets when no
leading run exceeds the budget. -/
theorem sample_single_budget (o : ByteOrder) (linktype : Int) (frames : List Packet)
    (budget : Nat) (hbudget : budget < 2 ^ 63)
    (hwf : ∀ p ∈ frames, p.well_formed) (hlen : ∀ p ∈ frames, p.h.len = p.h.caplen) :
    ∃ r k, sample_single o linktype frames budget = .ok r ∧ r.packets = (k : Nat) ∧
      k ≤ frames.length ∧
      r.file = pcap_header o linktype ++ pcap_records o (frames.take k) ∧
      ((budget < frame_bytes (frames.take k) ∧ ∀ j < k, frame_bytes (frames.take j) ≤ budget) ∨
        (k = frames.length ∧ ∀ j, frame_bytes (frames.take j) ≤ budget)) := by
  obtain ⟨r, k, hr, hpk, hk, hfile, hcount⟩ :=
    sample_single_full o linktype frames budget hwf hlen
  have hkc := hcount hbudget
  refine ⟨r, k, hr, hpk, hk, hfile, ?_⟩
  rw [hkc]
  exact (written_count_spec frames budget).2

/-- C3, witness: budget 1000 and three packets of 400 bytes; all 3 records are
written. -/
theorem sample_single_budget_witness :
    ∃ r, sample_single .little 1 [zero_packet 400, zero_packet 400, zero_packet 400] 1000
        = .ok r ∧ r.packets = 3 ∧
      r.file = pcap_header .little 1 ++
        pcap_records .little [zero_packet 400, zero_packet 400, zero_packet 400] := by
  obtain ⟨r, k, hr, hpk, hk, hfile, hchar⟩ := sample_single_budget .little 1
    [zero_packet 400, zero_packet 400, zero_packet 400] 1000 (by decide)
    (by
      intro p hp
      simp only [List.mem_cons, List.mem_singleton, List.not_mem_nil, or_false, or_self] at hp
      subst hp
      exact zero_packet_well_formed 400 (by decide))
    (by
      intro p hp
      simp only [List.mem_cons, List.mem_singleton, List.not_mem_nil, or_false, or_self] at hp
      subst hp
      rfl)
  have hk3 : k = 3 := by
    rcases hchar with ⟨hover, -⟩ | ⟨hall, -⟩
    · simp only [List.length_cons, List.length_nil] at hk
      interval_cases k <;>
        simp only [List.take, frame_bytes, List.map, List.sum_cons, List.sum_nil,
          zero_packet_len] at hover <;> omega
    · simpa using hall
  subst hk3
  exact ⟨r, hr, by simpa using hpk, by simpa using hfile⟩

/-- C3, counterexample: with the budget 2^64 - 1, which `bytes_left` holds as
-1, and two packets of one byte, the session writes one record although no
leading run of packets is longer than the budget. -/
theorem sample_single_budget_fails_above_int64 :
    ¬ ∃ r k, sample_single .little 1 [zero_packet 1, zero_packet 1] (2 ^ 64 - 1) = .ok r ∧
      r.packets = (k : Nat) ∧ k ≤ [zero_packet 1, zero_packet 1].length ∧
      r.file = pcap_header .little 1 ++
        pcap_records .little ([zero_packet 1, zero_packet 1].take k) ∧
      ((2 ^ 64 - 1 < frame_bytes ([zero_packet 1, zero_packet 1].take k) ∧
          ∀ j < k, frame_bytes ([zero_packet 1, zero_packet 1].take j) ≤ 2 ^ 64 - 1) ∨
        (k = [zero_packet 1, zero_packet 1].length ∧
          ∀ j, frame_bytes ([zero_packet 1, zero_packet 1].take j) ≤ 2 ^ 64 - 1)) := by
  rintro ⟨r, k, hr, hpk, -, -, hchar⟩
  have hs : (sample_single .little 1 [zero_packet 1, zero_packet 1] (2 ^ 64 - 1)).toOption.map
      (fun r => r.packets) = some 1 := by decide
  rw [hr] at hs
  simp only [Except.toOption, Option.map_some', Option.some.injEq] at hs
  have hk1 : k = 1 := by omega
  subst hk1
  rcases hchar with ⟨hover, -⟩ | ⟨hall, -⟩
  · revert hover
    decide
  · revert hall
    decide

/-- C4: round trip.  For every link type and every list of packets captured in
full whose timestamps fit in 32 bits, a session returns and decoding its file as
a 24-byte header followed by records of a 16-byte header plus `incl_len` bytes
yields, for the packets the session wrote and in their order, the same number of
records with the same timestamps, lengths and payload bytes. -/
theorem read_pcap_sample_single (o : ByteOrder) (linktype : Int) (frames : List Packet)
    (size : Nat)
    (hwf : ∀ p ∈ frames, p.well_formed) (hlen : ∀ p ∈ frames, p.h.len = p.h.caplen)
    (hsec : ∀ p ∈ frames, 0 ≤ p.h.ts.tv_sec ∧ p.h.ts.tv_sec < 2 ^ 32)
    (husec : ∀ p ∈ frames, 0 ≤ p.h.ts.tv_usec ∧ p.h.ts.tv_usec < 2 ^ 32) :
    ∃ r k, sample_single o linktype frames size = .ok r ∧ r.packets = (k : Nat) ∧
      k ≤ frames.length ∧
      ∃ recs, read_pcap o r.file = some (⟨0xa1b2c3d4, 2, 4, 0, 0, 65535, toU32 linktype⟩, recs) ∧
        recs.length = k ∧ recs = (frames.take k).map record_of := by
  obtain ⟨r, k, hr, hpk, hk, hfile, -⟩ := sample_single_full o linktype frames size hwf hlen
  refine ⟨r, k, hr, hpk, hk, (frames.take k).map record_of, ?_, by simp [hk], rfl⟩
  rw [hfile]
  unfold read_pcap
  rw [read_header_pcap_header]
  simp only
  rw [read_records_pcap_records o (frames.take k)
    (fun p hp => hwf p (List.mem_of_mem_take hp))
    (fun p hp => hsec p (List.mem_of_mem_take hp))
    (fun p hp => husec p (List.mem_of_mem_take hp)) _
    (length_le_length_pcap_records o _)]

/-- C4, witness: two packets, on a big-endian host. -/
theorem read_pcap_sample_single_witness :
    ∃ r, sample_single .big 1 [zero_packet 2, ⟨⟨⟨1, 2⟩, 3, 3⟩, [1, 2, 3]⟩] 1000 = .ok r ∧
      read_pcap .big r.file = some (⟨0xa1b2c3d4, 2, 4, 0, 0, 65535, 1⟩,
        [⟨7, 9, 2, 2, [0, 0]⟩, ⟨1, 2, 3, 3, [1, 2, 3]⟩]) := by
  obtain ⟨r, k, hr, hpk, hk, recs, hread, hlen, hrecs⟩ := read_pcap_sample_single .big 1
    [zero_packet 2, ⟨⟨⟨1, 2⟩, 3, 3⟩, [1, 2, 3]⟩] 1000 (by decide) (by decide) (by decide)
    (by decide)
  have hs : (sample_single .big 1 [zero_packet 2, ⟨⟨⟨1, 2⟩, 3, 3⟩, [1, 2, 3]⟩]
      1000).toOption.map (fun r => r.packets) = some 2 := by decide
  rw [hr] at hs
  simp only [Except.toOption, Option.map_some', Option.some.injEq] at hs
  have hk2 : k = 2 := by omega
  subst hk2
  refine ⟨r, hr, ?_⟩
  rw [hread, hrecs]
  rfl

/-- C8: a packet whose captured length differs from its original length makes
the callback abort after the four header fields, before any payload byte; a
session in which such a packet is reached, every packet before it being
captured in full and the budget not yet exceeded, is aborted with the file
holding the global header, the records before it and its 16 header bytes; a
session in which every packet is captured in full returns; and a session is
aborted only by the callback on a packet whose two lengths differ. -/
theorem sample_single_truncated (o : ByteOrder) (linktype : Int) (size : Nat) :
    (∀ (p : Packet) (s : Capture), p.h.len ≠ p.h.caplen →
      ∃ s', register_packet o p s = .error s' ∧
        s'.out = s.out ++ (host_bytes o 4 (toU32 p.h.ts.tv_sec) ++
          host_bytes o 4 (toU32 p.h.ts.tv_usec) ++ host_bytes o 4 p.h.len ++
          host_bytes o 4 p.h.len)) ∧
    (∀ (before after : List Packet) (bad : Packet), size < 2 ^ 63 →
      (∀ p ∈ before, p.well_formed) → (∀ p ∈ before, p.h.len = p.h.caplen) →
      frame_bytes before ≤ size → bad.h.len ≠ bad.h.caplen →
      ∃ s', sample_single o linktype (before ++ bad :: after) size = .error s' ∧
        s'.out = pcap_header o linktype ++ pcap_records o before ++
          (host_bytes o 4 (toU32 bad.h.ts.tv_sec) ++ host_bytes o 4 (toU32 bad.h.ts.tv_usec) ++
            host_bytes o 4 bad.h.len ++ host_bytes o 4 bad.h.len)) ∧
    (∀ frames : List Packet, (∀ p ∈ frames, p.h.len = p.h.caplen) →
      ∃ r, sample_single o linktype frames size = .ok r) ∧
    (∀ (frames : List Packet) (s' : Capture),
      sample_single o linktype frames size = .error s' →
      ∃ before bad after s, frames = before ++ bad :: after ∧ bad.h.len ≠ bad.h.caplen ∧
        register_packet o bad s = .error s') := by
  refine ⟨?_, ?_, ?_, ?_⟩
  · intro p s h
    exact ⟨_, register_packet_truncated o p s h, rfl⟩
  · intro before after bad hsize hwf hlen hfit hbad
    rw [sample_single_eq]
    obtain ⟨s', hrun, hout⟩ := pcap_dispatch_truncated o before after bad hwf hlen hbad
      ⟨pcap_header o linktype, toI64 size, false, linktype⟩ 0 size rfl
      (by show toI64 (size : Int) = (size : Int); unfold toI64; omega) hsize hfit
    rw [hrun]
    exact ⟨s', rfl, hout⟩
  · intro frames h
    exact sample_single_ok o linktype frames size h
  · intro frames s' h
    rw [sample_single_eq] at h
    cases hrun : pcap_dispatch o frames
        ⟨pcap_header o linktype, toI64 size, false, linktype⟩ 0 with
    | error e =>
      rw [hrun] at h
      simp only [Except.error.injEq] at h
      subst h
      exact pcap_dispatch_error o frames _ 0 e hrun
    | ok r =>
      rw [hrun] at h
      exact absurd h (by simp)

/-- C8, witness: the second of three packets is truncated. -/
theorem sample_single_truncated_witness :
    ∃ s', sample_single .little 1 ([zero_packet 1] ++ truncated_packet :: [zero_packet 1]) 100
        = .error s' ∧
      s'.out = pcap_header .little 1 ++ pcap_records .little [zero_packet 1] ++
        [7, 0, 0, 0, 9, 0, 0, 0, 3, 0, 0, 0, 3, 0, 0, 0] :=
  (sample_single_truncated .little 1 100).2.1 [zero_packet 1] [zero_packet 1] truncated_packet
    (by decide) (by decide) (by decide) (by decide) (by decide)

/-! ## Machine integers: helper lemmas -/

theorem toU64_of_lt (x : Nat) (h : x < 2 ^ 64) : toU64 (x : Int) = x := by
  unfold toU64
  have h1 : ((x : Int) % 2 ^ 64) = (x : Int) := Int.emod_eq_of_lt (by positivity) (by exact_mod_cast h)
  rw [h1]
  simp

theorem toU64_sub (a b : Nat) (hba : b ≤ a) (h : a - b < 2 ^ 64) :
    toU64 ((a : Int) - b) = a - b := by
  have h1 : ((a : Int) - b) = ((a - b : Nat) : Int) := by omega
  rw [h1]
  exact toU64_of_lt _ h

/-- Without wrap-around the test of `sig_poll` is the exact comparison. -/
theorem over_treshold_exact (treshold last cur el : Nat) (hle : last ≤ cur)
    (h1 : (cur - last) * 1000000 < 2 ^ 64) (h2 : treshold * el < 2 ^ 64) :
    over_treshold treshold last cur el = true ↔ (cur - last) * 1000000 > treshold * el := by
  have h3 : cur - last < 2 ^ 64 := by omega
  unfold over_treshold
  rw [toU64_sub cur last hle h3, Nat.mod_eq_of_lt h1, Nat.mod_eq_of_lt h2]
  simp

/-! ## vela.c: the decision of `sig_poll` -/

/-- Every run of `alert` prints the `ALERT!` line first. -/
theorem alert_stdout (o : ByteOrder) (t : Tick) (a b c : Nat) (st : Monitor) :
    ∃ evs, (final (alert o t a b c st)).stdout = st.stdout ++ Event.alert a b c :: evs := by
  cases hs : sample o st.iface t.linktype t.frames st.sample_size with
  | error cap => exact ⟨[Event.start_capture], by simp [alert, hs, final]⟩
  | ok r =>
    cases r with
    | none =>
      exact ⟨[Event.start_capture, Event.warn_multiple],
        by simp [alert, hs, final, reset_counters]⟩
    | some r =>
      exact ⟨[Event.start_capture, Event.captured r.packets r.size],
        by simp [alert, hs, final, reset_counters]⟩

/-- The last two assignments of `sig_poll` leave standard output alone. -/
theorem final_sig_poll_stdout (o : ByteOrder) (t : Tick) (st : Monitor) :
    (final (sig_poll o t st)).stdout =
      if over_treshold st.treshold st.last_poll_iobytes (getiobytes st.ifstat t.mib)
          (elapsed_usec t.current_time st.last_poll_time) then
        (final (alert o t st.last_poll_iobytes (getiobytes st.ifstat t.mib)
          (elapsed_usec t.current_time st.last_poll_time) st)).stdout
      else st.stdout := by
  unfold sig_poll
  split_ifs with h
  · cases hr : alert o t st.last_poll_iobytes (getiobytes st.ifstat t.mib)
        (elapsed_usec t.current_time st.last_poll_time) st <;> simp [final, h, hr]
  · simp [final, h]

/-- The run of `sig_poll` prints the `ALERT!` line exactly when its test holds. -/
theorem raised_alert_sig_poll (o : ByteOrder) (t : Tick) (st : Monitor) :
    raised_alert st (sig_poll o t st) =
      over_treshold st.treshold st.last_poll_iobytes (getiobytes st.ifstat t.mib)
        (elapsed_usec t.current_time st.last_poll_time) := by
  unfold raised_alert
  rw [final_sig_poll_stdout]
  split_ifs with h
  · obtain ⟨evs, hevs⟩ := alert_stdout o t st.last_poll_iobytes (getiobytes st.ifstat t.mib)
      (elapsed_usec t.current_time st.last_poll_time) st
    rw [hevs, h]
    simp [is_alert]
  · simp [h]

/-- C1, as amended: for every baseline, current counter value not below the
baseline, threshold and elapsed time such that neither `delta * 1000000` nor
`treshold * elapsed` wraps around in 64 bits, `sig_poll` raises an alert if and
only if `delta * 1000000 > treshold * elapsed`, where `delta` is the current
counter minus the baseline counter; equality gives no alert. -/
theorem sig_poll_alert_iff (o : ByteOrder) (t : Tick) (st : Monitor)
    (hdelta : st.last_poll_iobytes ≤ getiobytes st.ifstat t.mib)
    (hfit1 : (getiobytes st.ifstat t.mib - st.last_poll_iobytes) * 1000000 < 2 ^ 64)
    (hfit2 : st.treshold * elapsed_usec t.current_time st.last_poll_time < 2 ^ 64) :
    raised_alert st (sig_poll o t st) = true ↔
      (getiobytes st.ifstat t.mib - st.last_poll_iobytes) * 1000000 >
        st.treshold * elapsed_usec t.current_time st.last_poll_time := by
  rw [raised_alert_sig_poll]
  exact over_treshold_exact _ _ _ _ hdelta hfit1 hfit2

/-- C1, counterexample: with a threshold of 3689348814742 bytes per second, five
seconds elapsed and a delta of one byte, `threshold * elapsed` wraps around to
448384 and `sig_poll` raises an alert although `delta * 1000000` is far below
`threshold * elapsed`. -/
theorem sig_poll_alert_iff_fails_on_wrap :
    ¬ (0 < elapsed_usec overflow_tick.current_time overflow_monitor.last_poll_time →
        overflow_monitor.last_poll_iobytes ≤ getiobytes overflow_monitor.ifstat overflow_tick.mib →
        0 < overflow_monitor.treshold →
        (raised_alert overflow_monitor (sig_poll .little overflow_tick overflow_monitor) = true ↔
          (getiobytes overflow_monitor.ifstat overflow_tick.mib
              - overflow_monitor.last_poll_iobytes) * 1000000 >
            overflow_monitor.treshold *
              elapsed_usec overflow_tick.current_time overflow_monitor.last_poll_time)) := by
  decide

/-- C1, witness: threshold 1000000 and elapsed 1000000 microseconds; a delta of
1000000 gives no alert, a delta of 1000001 gives one. -/
theorem sig_poll_alert_iff_witness :
    (raised_alert example_monitor (sig_poll .little (example_tick 1000000 0) example_monitor)
        = false) ∧
      (raised_alert example_monitor (sig_poll .little (example_tick 1000001 0) example_monitor)
        = true) :=
  ⟨by
    have h := sig_poll_alert_iff .little (example_tick 1000000 0) example_monitor
      (by decide) (by decide) (by decide)
    cases hr : raised_alert example_monitor
        (sig_poll .little (example_tick 1000000 0) example_monitor) with
    | false => rfl
    | true => exact absurd (h.1 hr) (by decide),
   (sig_poll_alert_iff .little (example_tick 1000001 0) example_monitor
      (by decide) (by decide) (by decide)).2 (by decide)⟩

/-! ## vela.c: the baseline -/

theorem alert_ok (o : ByteOrder) (t : Tick) (a b c : Nat) (st : Monitor)
    (h : ∀ p ∈ t.frames, p.h.len = p.h.caplen) : ∃ st', alert o t a b c st = .ok st' := by
  obtain ⟨r, hr⟩ := sample_ok o st.iface t.linktype t.frames st.sample_size h
  simp only [alert, hr]
  exact ⟨_, rfl⟩

/-- C6: `sig_poll` returns whenever no packet handed to a capture is truncated,
and whenever it returns, after an alert or not, the baseline is exactly the time
and the counter value it read at its start. -/
theorem sig_poll_baseline (o : ByteOrder) (t : Tick) (st : Monitor) :
    ((∀ p ∈ t.frames, p.h.len = p.h.caplen) → ∃ st', sig_poll o t st = .ok st') ∧
    ∀ st', sig_poll o t st = .ok st' →
      st'.last_poll_time = t.current_time ∧
      st'.last_poll_iobytes = getiobytes st.ifstat t.mib := by
  constructor
  · intro h
    unfold sig_poll
    dsimp only
    split_ifs with hc
    · obtain ⟨st1, h1⟩ := alert_ok o t st.last_poll_iobytes (getiobytes st.ifstat t.mib)
        (elapsed_usec t.current_time st.last_poll_time) st h
      simp only [h1]
      exact ⟨_, rfl⟩
    · exact ⟨_, rfl⟩
  · intro st' h
    unfold sig_poll at h
    dsimp only at h
    split at h
    · exact absurd h (by simp)
    · simp only [Except.ok.injEq] at h
      subst h
      exact ⟨rfl, rfl⟩

/-- C6, witness: an alerting tick with a capture, after which the baseline is
the sample of the tick. -/
theorem sig_poll_baseline_witness :
    (∀ p ∈ (example_tick 2000000 500).frames, p.h.len = p.h.caplen) ∧
    ∃ st', sig_poll .little (example_tick 2000000 500) example_monitor = .ok st' ∧
      st'.last_poll_time = ⟨1, 0⟩ ∧ st'.last_poll_iobytes = 2000000 := by
  have hf : ∀ p ∈ (example_tick 2000000 500).frames, p.h.len = p.h.caplen := by
    intro p hp
    simp [example_tick] at hp
  obtain ⟨st', h⟩ := (sig_poll_baseline .little (example_tick 2000000 500) example_monitor).1 hf
  exact ⟨hf, st', h,
    (sig_poll_baseline .little (example_tick 2000000 500) example_monitor).2 st' h⟩

/-- C2, the code at a failing input: the tick alerts and a capture runs, during
which the counter advances by 500; `reset_counters` samples time 3 and counter
2000500, yet `sig_poll` returns with the baseline of time 1 and counter 2000000,
so a next tick that reads the counter unchanged at 2000500 computes a delta of 500. -/
theorem sig_poll_overwrites_fresh_baseline :
    raised_alert example_monitor (sig_poll .little (example_tick 2000000 500) example_monitor)
        = true ∧
      (sig_poll .little (example_tick 2000000 500) example_monitor).toOption.map
          (fun st => (st.last_poll_time, st.last_poll_iobytes, st.test_pcap.isSome))
        = some (⟨1, 0⟩, 2000000, true) ∧
      getiobytes example_monitor.ifstat (example_tick 2000000 500).reset_mib = 2000500 ∧
      (sig_poll .little (example_tick 2000000 500) example_monitor).toOption.map
          (fun st => toU64 ((getiobytes st.ifstat (example_tick 2000000 500).reset_mib : Int)
            - st.last_poll_iobytes))
        = some 500 := by
  decide

/-! ## vela.c: alarms during a capture -/

theorem deliver_sigalrm_invariant (p : Process) (h : p.invariant) :
    (deliver_sigalrm p).invariant := by
  unfold deliver_sigalrm
  rcases h with ⟨hs, hd⟩ | ⟨a, hs, hout, hin⟩
  · rw [hd]
    simp only [hs, List.isEmpty_nil, if_true]
    exact Or.inr ⟨Activation.entry, rfl, fun _ => hd, fun h => by cases h⟩
  · cases hc : a.pc.in_capture_cycle with
    | true =>
      rw [(hin hc).1]
      exact Or.inr ⟨a, hs, hout, hin⟩
    | false =>
      rw [hout hc]
      simp only [hs, List.isEmpty_cons, Bool.false_eq_true, if_false]
      exact Or.inr ⟨a, rfl, hout, hin⟩

theorem run_step_invariant (o : ByteOrder) (t : Tick) (p : Process) (a : Activation)
    (hs : p.stack = [a])
    (hout : a.pc.in_capture_cycle = false → p.st.sigalrm = .handler)
    (hin : a.pc.in_capture_cycle = true → p.st.sigalrm = .ign ∧ a.old_act = .handler) :
    (run_step o t p a []).invariant := by
  unfold run_step
  cases hpc : a.pc with
  | poll_read =>
    have hd := hout (by rw [hpc]; rfl)
    dsimp only
    split_ifs
    · exact Or.inr ⟨_, rfl, fun _ => hd, fun h => by cases h⟩
    · exact Or.inr ⟨_, rfl, fun _ => hd, fun h => by cases h⟩
  | alert_ignore =>
    have hd := hout (by rw [hpc]; rfl)
    dsimp only
    exact Or.inr ⟨_, rfl, (fun h => by cases h), fun _ => ⟨rfl, hd⟩⟩
  | alert_print =>
    have hd := hin (by rw [hpc]; rfl)
    dsimp only
    exact Or.inr ⟨_, rfl, (fun h => by cases h), fun _ => hd⟩
  | alert_sample =>
    have hd := hin (by rw [hpc]; rfl)
    dsimp only
    exact Or.inr ⟨_, rfl, (fun h => by cases h), fun _ => hd⟩
  | capturing =>
    have hd := hin (by rw [hpc]; rfl)
    dsimp only
    split
    · exact Or.inr ⟨a, hs, (fun h => by rw [hpc] at h; cases h), fun _ => hd⟩
    · exact Or.inr ⟨_, rfl, (fun h => by cases h), fun _ => hd⟩
    · exact Or.inr ⟨_, rfl, (fun h => by cases h), fun _ => hd⟩
  | alert_reset =>
    have hd := hin (by rw [hpc]; rfl)
    dsimp only
    exact Or.inr ⟨_, rfl, (fun h => by cases h), fun _ => hd⟩
  | alert_restore =>
    have hd := hin (by rw [hpc]; rfl)
    dsimp only
    exact Or.inr ⟨_, rfl, fun _ => hd.2, fun h => by cases h⟩
  | poll_store =>
    have hd := hout (by rw [hpc]; rfl)
    dsimp only
    split_ifs
    · exact deliver_sigalrm_invariant _ (Or.inl ⟨rfl, hd⟩)
    · exact Or.inl ⟨rfl, hd⟩

theorem step_invariant (o : ByteOrder) (p : Process) (i : Input) (h : p.invariant) :
    (step o p i).invariant := by
  unfold step
  split_ifs
  · exact h
  · cases i with
    | alarm => exact deliver_sigalrm_invariant p h
    | run t =>
      rcases h with ⟨hs, hd⟩ | ⟨a, hs, hout, hin⟩
      · simp only [hs]
        exact Or.inl ⟨hs, hd⟩
      · simp only [hs]
        exact run_step_invariant o t p a hs hout hin

theorem exec_invariant (o : ByteOrder) (inputs : List Input) (p : Process)
    (h : p.invariant) : (exec o p inputs).invariant := by
  induction inputs generalizing p with
  | nil => exact h
  | cons i rest ih => exact ih (step o p i) (step_invariant o p i h)

theorem step_run_cons (o : ByteOrder) (t : Tick) (p : Process) (a : Activation)
    (rest : List Activation) (hd : p.dead = false) (hs : p.stack = a :: rest) :
    step o p (.run t) = run_step o t p a rest := by
  unfold step
  rw [hd, hs]
  rfl

theorem step_run_nil (o : ByteOrder) (t : Tick) (p : Process) (hs : p.stack = []) :
    step o p (.run t) = p := by
  unfold step
  split_ifs
  · rfl
  · simp only [hs]

theorem exec_run_nil (o : ByteOrder) (t : Tick) (p : Process) (hs : p.stack = []) (n : Nat) :
    exec o p (List.replicate n (.run t)) = p := by
  induction n with
  | zero => rfl
  | succ n ih => rw [List.replicate_succ, exec, step_run_nil o t p hs, ih]

theorem step_dead (o : ByteOrder) (p : Process) (i : Input) (hd : p.dead = true) :
    step o p i = p := by
  unfold step
  rw [if_pos hd]

theorem exec_dead (o : ByteOrder) (p : Process) (inputs : List Input) (hd : p.dead = true) :
    exec o p inputs = p := by
  induction inputs with
  | nil => rfl
  | cons i rest ih => rw [exec, step_dead o p i hd, ih]

/-- A timer expiry while `alert` is about to set `SIG_IGN` is held pending and
then discarded by that call: the process goes on as if it had not occurred. -/
theorem alarm_at_alert_entry (o : ByteOrder) (t : Tick) (p : Process) (a : Activation)
    (rest : List Activation) (hs : p.stack = a :: rest) (hpc : a.pc = .alert_ignore)
    (hd : p.st.sigalrm = .handler) :
    step o (step o p .alarm) (.run t) = step o p (.run t) := by
  cases hdead : p.dead with
  | true => rw [step_dead o p .alarm hdead]
  | false =>
    have h1 : step o p .alarm = { p with pending := true } := by
      simp only [step, hdead, Bool.false_eq_true, if_false, deliver_sigalrm, hd, hs,
        List.isEmpty_cons]
    rw [h1, step_run_cons o t p a rest hdead hs,
      step_run_cons o t { p with pending := true } a rest hdead hs]
    simp only [run_step, hpc]

/-- C7: from the state in which `start_poll` leaves the process, with
`sig_poll` installed as handler, and for every sequence of timer expiries and
steps of the process: at most one capture session is in progress and at most one
activation of `sig_poll` exists; while the process is in `alert` between its two
calls of `sigaction` the disposition of `SIGALRM` is `SIG_IGN` and a timer
expiry leaves the process as it is, so that `sig_poll` is not entered and
nothing is held pending; a timer expiry just before the first `sigaction` of
`alert` is discarded by that call; outside of the stretch between the two calls
the disposition is the handler again. -/
theorem single_capture (o : ByteOrder) (st : Monitor) (inputs : List Input)
    (h : st.sigalrm = .handler) :
    (exec o (Process.start st) inputs).sessions ≤ 1 ∧
    (exec o (Process.start st) inputs).stack.length ≤ 1 ∧
    ((exec o (Process.start st) inputs).in_capture_cycle = true →
      (exec o (Process.start st) inputs).st.sigalrm = .ign ∧
      step o (exec o (Process.start st) inputs) .alarm = exec o (Process.start st) inputs) ∧
    (∀ a rest t, (exec o (Process.start st) inputs).stack = a :: rest → a.pc = .alert_ignore →
      step o (step o (exec o (Process.start st) inputs) .alarm) (.run t) =
        step o (exec o (Process.start st) inputs) (.run t)) ∧
    ((exec o (Process.start st) inputs).in_capture_cycle = false →
      (exec o (Process.start st) inputs).st.sigalrm = .handler) := by
  have hinv := exec_invariant o inputs (Process.start st) (Or.inl ⟨rfl, h⟩)
  generalize exec o (Process.start st) inputs = p at hinv
  rcases hinv with ⟨hs, hd⟩ | ⟨a, hs, hout, hin⟩
  · refine ⟨by simp [Process.sessions, hs], by simp [hs], ?_, ?_, fun _ => hd⟩
    · intro hc
      simp [Process.in_capture_cycle, hs] at hc
    · intro a rest t hst
      rw [hs] at hst
      cases hst
  · refine ⟨?_, by simp [hs], ?_, ?_, ?_⟩
    · simp only [Process.sessions, hs]
      exact le_trans (List.length_filter_le _ _) (by simp)
    · intro hc
      have hc' : a.pc.in_capture_cycle = true := by
        simpa [Process.in_capture_cycle, hs] using hc
      refine ⟨(hin hc').1, ?_⟩
      unfold step deliver_sigalrm
      rw [(hin hc').1]
      simp
    · intro a' rest t hst hpc
      rw [hs] at hst
      simp only [List.cons.injEq] at hst
      obtain ⟨ha, hrest⟩ := hst
      subst ha hrest
      exact alarm_at_alert_entry o t p a [] hs hpc (hout (by rw [hpc]; rfl))
    · intro hc
      have hc' : a.pc.in_capture_cycle = false := by
        simpa [Process.in_capture_cycle, hs] using hc
      exact hout hc'

/-- C7, witness: an alerting tick, then two timer expiries while the capture is
in progress; one session is in progress, the disposition is `SIG_IGN`, a further
expiry changes nothing and `sig_poll` has been entered once. -/
theorem single_capture_witness :
    example_monitor.sigalrm = .handler ∧
    (exec .little (Process.start example_monitor) alarms_during_capture).in_capture_cycle
      = true ∧
    (exec .little (Process.start example_monitor) alarms_during_capture).sessions = 1 ∧
    (exec .little (Process.start example_monitor) alarms_during_capture).polls = 1 ∧
    (exec .little (Process.start example_monitor) alarms_during_capture).st.sigalrm = .ign ∧
    step .little (exec .little (Process.start example_monitor) alarms_during_capture) .alarm =
      exec .little (Process.start example_monitor) alarms_during_capture := by
  have h := single_capture .little example_monitor alarms_during_capture rfl
  have hc : (exec .little (Process.start example_monitor) alarms_during_capture).in_capture_cycle
      = true := by decide
  exact ⟨rfl, hc, by decide, by decide, (h.2.2.1 hc).1, (h.2.2.1 hc).2⟩

/-- Run without interruption, the steps of the handler do what `sig_poll`
does. -/
theorem exec_sig_poll (o : ByteOrder) (t : Tick) (st : Monitor) (polls : Nat) :
    (exec o ⟨st, [Activation.entry], false, false, polls⟩ (List.replicate 8 (.run t))).st =
      final (sig_poll o t st) := by
  rw [List.replicate_succ, exec, step_run_cons o t _ Activation.entry [] rfl rfl]
  by_cases hc : over_treshold st.treshold st.last_poll_iobytes (getiobytes st.ifstat t.mib)
      (elapsed_usec t.current_time st.last_poll_time) = true
  · simp only [run_step, Activation.entry, hc, if_true]
    rw [List.replicate_succ, exec, step_run_cons o t _ _ [] rfl rfl]
    simp only [run_step]
    rw [List.replicate_succ, exec, step_run_cons o t _ _ [] rfl rfl]
    simp only [run_step]
    rw [List.replicate_succ, exec, step_run_cons o t _ _ [] rfl rfl]
    simp only [run_step]
    rw [List.replicate_succ, exec, step_run_cons o t _ _ [] rfl rfl]
    simp only [run_step]
    cases hs : sample o st.iface t.linktype t.frames st.sample_size with
    | error c =>
      simp only []
      rw [exec_dead o _ _ rfl]
      simp only [sig_poll, alert, hc, if_true, hs, final]
    | ok r =>
      cases r with
      | none =>
        simp only []
        rw [List.replicate_succ, exec, step_run_cons o t _ _ [] rfl rfl]
        simp only [run_step]
        rw [List.replicate_succ, exec, step_run_cons o t _ _ [] rfl rfl]
        simp only [run_step]
        rw [List.replicate_succ, exec, step_run_cons o t _ _ [] rfl rfl]
        simp only [run_step, Bool.false_eq_true, if_false, List.replicate, exec]
        simp only [sig_poll, alert, hc, if_true, hs, final, reset_counters,
          List.append_assoc, List.singleton_append]
      | some r =>
        simp only []
        rw [List.replicate_succ, exec, step_run_cons o t _ _ [] rfl rfl]
        simp only [run_step]
        rw [List.replicate_succ, exec, step_run_cons o t _ _ [] rfl rfl]
        simp only [run_step]
        rw [List.replicate_succ, exec, step_run_cons o t _ _ [] rfl rfl]
        simp only [run_step, Bool.false_eq_true, if_false, List.replicate, exec]
        simp only [sig_poll, alert, hc, if_true, hs, final, reset_counters,
          List.append_assoc, List.singleton_append]
  · simp only [run_step, Activation.entry, hc, if_false]
    rw [List.replicate_succ, exec, step_run_cons o t _ _ [] rfl rfl]
    simp only [run_step, Bool.false_eq_true, if_false]
    rw [exec_run_nil o t _ rfl]
    simp only [sig_poll, hc, if_false, final, Bool.false_eq_true]

/-! ## vela.c: the decision of `sig_poll` in 64-bit arithmetic -/

/-- The test of `sig_poll` written with integers reduced modulo 2^64. -/
theorem over_treshold_mod (treshold last cur el : Nat) :
    over_treshold treshold last cur el = true ↔
      ((((cur : Int) - last) % 2 ^ 64) * 1000000) % 2 ^ 64 >
        ((treshold : Int) * el) % 2 ^ 64 := by
  have hcast : ((treshold : Int) * el) = ((treshold * el : Nat) : Int) := by push_cast; rfl
  rw [hcast]
  unfold over_treshold toU64
  simp only [decide_eq_true_eq]
  generalize treshold * el = prod
  omega

/-- C11: `sig_poll` decides on 64-bit unsigned arithmetic: it raises an alert if
and only if `(((current - baseline) mod 2^64) * 10^6) mod 2^64` is greater than
`(threshold * elapsed_usec) mod 2^64`.  For all inputs with `current >= baseline`,
`(current - baseline) * 10^6 < 2^64` and `threshold * elapsed_usec < 2^64` this
is the exact comparison `(current - baseline) * 10^6 > threshold * elapsed_usec`;
in particular with `elapsed_usec = 0` it alerts if and only if
`current > baseline`. -/
theorem sig_poll_decides_modulo (o : ByteOrder) (t : Tick) (st : Monitor) :
    (raised_alert st (sig_poll o t st) = true ↔
      ((((getiobytes st.ifstat t.mib : Int) - st.last_poll_iobytes) % 2 ^ 64) * 1000000)
          % 2 ^ 64 >
        ((st.treshold : Int) * elapsed_usec t.current_time st.last_poll_time) % 2 ^ 64) ∧
    (st.last_poll_iobytes ≤ getiobytes st.ifstat t.mib →
      (getiobytes st.ifstat t.mib - st.last_poll_iobytes) * 1000000 < 2 ^ 64 →
      st.treshold * elapsed_usec t.current_time st.last_poll_time < 2 ^ 64 →
      (raised_alert st (sig_poll o t st) = true ↔
        (getiobytes st.ifstat t.mib - st.last_poll_iobytes) * 1000000 >
          st.treshold * elapsed_usec t.current_time st.last_poll_time)) ∧
    (st.last_poll_iobytes ≤ getiobytes st.ifstat t.mib →
      (getiobytes st.ifstat t.mib - st.last_poll_iobytes) * 1000000 < 2 ^ 64 →
      elapsed_usec t.current_time st.last_poll_time = 0 →
      (raised_alert st (sig_poll o t st) = true ↔
        getiobytes st.ifstat t.mib > st.last_poll_iobytes)) := by
  refine ⟨?_, ?_, ?_⟩
  · rw [raised_alert_sig_poll]
    exact over_treshold_mod _ _ _ _
  · intro hle h1 h2
    rw [raised_alert_sig_poll]
    exact over_treshold_exact _ _ _ _ hle h1 h2
  · intro hle h1 hel
    rw [raised_alert_sig_poll, over_treshold_exact _ _ _ _ hle h1 (by rw [hel]; norm_num), hel]
    omega

/-- C11, witness: with threshold 3689348814742 and 5000000 microseconds elapsed
the right-hand side is 448384 modulo 2^64, so a delta of one byte alerts; with
threshold 1000000 and 1000000 microseconds elapsed a delta of 1000001 alerts by
the exact comparison; with no time elapsed a delta of one byte alerts and a
delta of zero does not. -/
theorem sig_poll_decides_modulo_witness :
    raised_alert overflow_monitor (sig_poll .little overflow_tick overflow_monitor) = true ∧
    ((3689348814742 : Int) * 5000000) % 2 ^ 64 = 448384 ∧
    raised_alert example_monitor (sig_poll .little (example_tick 1000001 0) example_monitor)
      = true ∧
    raised_alert example_monitor (sig_poll .little (instant_tick 1) example_monitor) = true ∧
    raised_alert example_monitor (sig_poll .little (instant_tick 0) example_monitor) = false := by
  refine ⟨?_, by decide, ?_, ?_, ?_⟩
  · exact (sig_poll_decides_modulo .little overflow_tick overflow_monitor).1.2 (by decide)
  · exact (sig_poll_decides_modulo .little (example_tick 1000001 0) example_monitor).2.1
      (by decide) (by decide) (by decide) |>.2 (by decide)
  · exact (sig_poll_decides_modulo .little (instant_tick 1) example_monitor).2.2
      (by decide) (by decide) (by decide) |>.2 (by decide)
  · have h := (sig_poll_decides_modulo .little (instant_tick 0) example_monitor).2.2
      (by decide) (by decide) (by decide)
    cases hr : raised_alert example_monitor
        (sig_poll .little (instant_tick 0) example_monitor) with
    | false => rfl
    | true => exact absurd (h.1 hr) (by decide)

end Vela
